import Mathlib

/-!
Verification of the efiboots boot-configuration core (`efiboots.py`):
the `efibootmgr -v` line parser (regex-driven), the pseudo-UTF-16
name/parameter decoder, the editable boot store (`EFIStore`) and the
command planner (`EFIStore.__str__`).

Python strings are modelled as `List Char` (a Python `str` is a sequence
of code points).  Bytes are modelled as `Nat`.  Fallible Python code
(uncaught exceptions) is modelled with `Option`/`Except`.
-/

/-- A Python string: a sequence of code points. -/
abbrev Str := List Char

/-- Literal helper: the characters of a Lean string literal. -/
def str (s : String) : Str := s.data

/-! ## A small backtracking regular-expression engine

`re.match` semantics: leftmost match with greedy quantifiers and
left-biased alternation, obtained as the head of the list of all
matches enumerated in backtracking priority order.  `cls` is a
single-character class; `RE.cls (· ≠ '\n')` is `.` (Python without
`re.DOTALL`); `eos` models `$` (end of input, or just before a final
newline).

A match outcome is the pair of the remaining (unconsumed) suffix and
the captured groups accumulated so far. -/

inductive RE where
  | epsilon : RE
  | lit : Char → RE
  | cls : (Char → Bool) → RE
  | seq : RE → RE → RE
  | alt : RE → RE → RE
  | star : RE → RE
  | group : Nat → RE → RE
  | eos : RE

/-- Greedy `+`: one occurrence followed by a greedy `*`. -/
def RE.plus (e : RE) : RE := RE.seq e (RE.star e)

/-- Greedy `?`: prefer matching `e`, fall back to the empty match. -/
def RE.opt (e : RE) : RE := RE.alt e RE.epsilon

/-- Captured groups: group number paired with captured text.  A later
binding for the same number shadows an earlier one (Python overwrites). -/
abbrev Groups := List (Nat × Str)

/-- One match outcome: remaining suffix and captured groups. -/
abbrev MRes := Str × Groups

/-- Greedy iteration of a sub-matcher `f` (all matches of `e*`, longest
total consumption first).  An iteration must consume at least one
character; `fuel` bounds the number of iterations and is passed
`s.length` by `mall`, which the consumption guard makes sufficient:
when `fuel = 0` the guard `r.1.length < s.length` could never have
fired anyway (`s` is empty), so only the empty match remains. -/
def mallStar (f : Str → List MRes) : Nat → Str → List MRes
  | 0, s => [(s, [])]
  | fuel + 1, s =>
    ((f s).flatMap (fun r =>
      if r.1.length < s.length then
        (mallStar f fuel r.1).map (fun r' => (r'.1, r.2 ++ r'.2))
      else []))
    ++ [(s, [])]

/-- All complete matches of `e` against a prefix of `s`, in backtracking
priority order (greedy quantifiers: longer consumption first;
alternation: left branch first).  The head is the match Python's
backtracking engine commits to. -/
def mall : RE → Str → List MRes
  | .epsilon, s => [(s, [])]
  | .lit c, s =>
    match s with
    | [] => []
    | c' :: rest => if c' = c then [(rest, [])] else []
  | .cls p, s =>
    match s with
    | [] => []
    | c' :: rest => if p c' then [(rest, [])] else []
  | .seq a b, s =>
    (mall a s).flatMap (fun r =>
      (mall b r.1).map (fun r' => (r'.1, r.2 ++ r'.2)))
  | .alt a b, s => mall a s ++ mall b s
  | .star a, s => mallStar (mall a) s.length s
  | .group n a, s =>
    (mall a s).map (fun r => (r.1, r.2 ++ [(n, s.take (s.length - r.1.length))]))
  | .eos, s => if s = [] ∨ s = ['\n'] then [(s, [])] else []

/-- `re.match`: the first (highest-priority) match at the start of the
string, if any; returns its captured groups. -/
def reMatch (e : RE) (s : Str) : Option Groups :=
  (mall e s).head?.map (·.2)

/-- `match.group(n)`: the text captured by group `n`, `none` if the
group did not participate in the match.  The last binding wins. -/
def groupGet (gs : Groups) (n : Nat) : Option Str :=
  (gs.reverse.find? (fun p => p.1 == n)).map (·.2)

/-! ## The entry-line regular expression

`efibootmgr_regex = re.compile(r'^Boot([0-9A-F]+)(\*)? (.+)\t(?:.+\/File\((.+)\)|.*\))(.*)$')` -/

/-- `.`: any character but a newline. -/
def reDot : RE := RE.cls (fun c => c ≠ '\n')

/-- `[0-9A-F]`: an uppercase hexadecimal digit. -/
def isHexUpper (c : Char) : Bool := ('0' ≤ c && c ≤ '9') || ('A' ≤ c && c ≤ 'F')

/-- A sequence of literal characters. -/
def reLits (w : Str) : RE := w.foldr (fun c e => RE.seq (RE.lit c) e) RE.epsilon

/-- The compiled pattern
`^Boot([0-9A-F]+)(\*)? (.+)\t(?:.+\/File\((.+)\)|.*\))(.*)$`. -/
def efibootmgr_regex : RE :=
  .seq (reLits (str "Boot"))
  (.seq (.group 1 (.plus (.cls isHexUpper)))
  (.seq (.opt (.group 2 (.lit '*')))
  (.seq (.lit ' ')
  (.seq (.group 3 (.plus reDot))
  (.seq (.lit '\t')
  (.seq (.alt (.seq (.plus reDot)
                (.seq (reLits (str "/File("))
                (.seq (.group 4 (.plus reDot)) (.lit ')'))))
              (.seq (.star reDot) (.lit ')')))
  (.seq (.group 5 (.star reDot)) .eos)))))))

/-! ## The pseudo-UTF-16 name/parameter decoder (`try_decode_efibootmgr`) -/

/-- UTF-8 encoding of one code point (Python `str.encode('utf-8')`,
per character). -/
def utf8EncodeChar (c : Char) : List Nat :=
  let n := c.toNat
  if n < 0x80 then [n]
  else if n < 0x800 then [0xC0 + n / 0x40, 0x80 + n % 0x40]
  else if n < 0x10000 then
    [0xE0 + n / 0x1000, 0x80 + (n / 0x40) % 0x40, 0x80 + n % 0x40]
  else
    [0xF0 + n / 0x40000, 0x80 + (n / 0x1000) % 0x40,
     0x80 + (n / 0x40) % 0x40, 0x80 + n % 0x40]

/-- `bytearray(code, 'utf-8')`. -/
def utf8Encode (s : Str) : List Nat := s.flatMap utf8EncodeChar

/-- Little-endian pairing of bytes into UTF-16 code units; fails on an
odd number of bytes (truncated data). -/
def utf16PairsLE : List Nat → Option (List Nat)
  | [] => some []
  | [_] => none
  | lo :: hi :: rest => (utf16PairsLE rest).map (fun us => (lo + 256 * hi) :: us)

/-- Big-endian pairing of bytes into UTF-16 code units. -/
def utf16PairsBE : List Nat → Option (List Nat)
  | [] => some []
  | [_] => none
  | hi :: lo :: rest => (utf16PairsBE rest).map (fun us => (lo + 256 * hi) :: us)

/-- Combine UTF-16 code units into code points: surrogate pairs are
merged, lone surrogates are a decode error. -/
def utf16Combine : List Nat → Option (List Char)
  | [] => some []
  | u :: rest =>
    if 0xD800 ≤ u ∧ u ≤ 0xDBFF then
      match rest with
      | [] => none
      | u2 :: rest2 =>
        if 0xDC00 ≤ u2 ∧ u2 ≤ 0xDFFF then
          (utf16Combine rest2).map
            (fun cs => Char.ofNat (0x10000 + (u - 0xD800) * 0x400 + (u2 - 0xDC00)) :: cs)
        else none
    else if 0xDC00 ≤ u ∧ u ≤ 0xDFFF then none
    else (utf16Combine rest).map (fun cs => Char.ofNat u :: cs)

/-- `bytes.decode('utf-16')`: byte-order-mark sniffing (`FF FE` → LE,
`FE FF` → BE), little-endian by default; `none` models
`UnicodeDecodeError`. -/
def utf16Decode (bytes : List Nat) : Option (List Char) :=
  if bytes.take 2 = [0xFF, 0xFE] then (utf16PairsLE (bytes.drop 2)).bind utf16Combine
  else if bytes.take 2 = [0xFE, 0xFF] then (utf16PairsBE (bytes.drop 2)).bind utf16Combine
  else (utf16PairsLE bytes).bind utf16Combine

/-- Body of `try_decode_efibootmgr`.  The only recursion in the source
strips a 7-character `WINDOWS` prefix, so the input length strictly
drops at each step; `fuel` (initialised to the length) makes the
recursion structural, and the `fuel = 0` fallback is unreachable while
the `WINDOWS` prefix test succeeds (the prefix forces
`7 ≤ code.length ≤ fuel`). -/
def try_decode_fueled : Nat → Str → Str
  | fuel, code =>
    if '.' ∉ code then code
    else if code.getLast? = some '.' ∧ code.count '.' = 1 then code
    else if (str "WINDOWS").isPrefixOf code then
      match fuel with
      | 0 => code
      | fuel + 1 => str "WINDOWS" ++ try_decode_fueled fuel (code.drop 7)
    else
      let code_bytes :=
        (utf8Encode code).enum.map (fun p => if p.1 % 2 = 1 ∧ p.2 = 46 then 0 else p.2)
      match utf16Decode code_bytes with
      | some decoded => decoded
      | none => code

/-- `try_decode_efibootmgr(code)`: return pure-ASCII-looking text
unchanged, keep a lone trailing `.`, strip and re-prepend a literal
`WINDOWS` prefix, otherwise zero out every `.` byte at an odd offset of
the UTF-8 buffer and decode it as UTF-16, falling back to the original
text on a decode error. -/
def try_decode_efibootmgr (code : Str) : Str :=
  try_decode_fueled code.length code

/-- Modelled from the spec: the documented byte-substitution scheme the
decoder is meant to reverse — serialize the text as UTF-16LE bytes and
render the NUL high byte of each ASCII-range code unit as a literal
`'.'` (other bytes are rendered as the character of their value). -/
def encodeScheme (x : Str) : Str :=
  (x.flatMap (fun c =>
    let n := c.toNat
    if n < 0x10000 then [n]
    else [0xD800 + (n - 0x10000) / 0x400, 0xDC00 + (n - 0x10000) % 0x400])).flatMap
  (fun u => [Char.ofNat (u % 256), if u < 0x80 then '.' else Char.ofNat (u / 256)])

/-! ## Python string primitives used by the line parser -/

/-- Python ASCII whitespace (the characters `str.split`/`str.strip`
treat as separators in this input). -/
def pyIsSpace (c : Char) : Bool :=
  c = ' ' || c = '\t' || c = '\n' || c = '\r' || c = '\x0b' || c = '\x0c'

/-- `str.strip()`: drop whitespace from both ends. -/
def pyStrip (s : Str) : Str :=
  ((s.dropWhile pyIsSpace).reverse.dropWhile pyIsSpace).reverse

/-- `str.split(sep)` for a one-character separator: split at every
occurrence, keeping empty pieces (always at least one piece). -/
def pySplitChar (sep : Char) : Str → List Str
  | [] => [[]]
  | c :: rest =>
    let pieces := pySplitChar sep rest
    if c = sep then [] :: pieces
    else
      match pieces with
      | [] => [[c]]
      | p :: ps => (c :: p) :: ps

/-- `str.split()` with no argument: split on whitespace runs, dropping
empty pieces. -/
def pySplitWs (s : Str) : List Str :=
  (s.splitOnP pyIsSpace).filter (fun p => p ≠ [])

/-- `int(s)` for the decimal forms accepted here: optional surrounding
whitespace, an optional sign, then one or more digits; `none` models
`ValueError`. -/
def pyInt (s : Str) : Option Int :=
  let t := pyStrip s
  let (sign, digits) : Int × Str :=
    match t with
    | '-' :: rest => (-1, rest)
    | '+' :: rest => (1, rest)
    | _ => (1, t)
  if digits ≠ [] ∧ digits.all (·.isDigit) then
    some (sign * (digits.foldl (fun acc c => acc * 10 + (c.toNat - '0'.toNat)) 0 : Nat))
  else none

/-! ## The line parser (`parse_efibootmgr_line`) and snapshot builder
(`parse_efibootmgr`) -/

/-- Python exceptions relevant to the parser: the parser's own
`ValueError` (raised for an unmatched line, and by `int(...)`), and the
`IndexError` raised by an out-of-range subscript such as
`line.split(':')[1]`.  `parse_efibootmgr` catches only `ValueError`. -/
inductive PyErr where
  | valueError : PyErr
  | indexError : PyErr
deriving DecidableEq

deriving instance DecidableEq for Except

/-- One parsed boot entry (`dict(num=…, active=…, name=…, path=…,
parameters=…)`). -/
structure ParsedEntry where
  num : Str
  active : Bool
  name : Str
  path : Str
  parameters : Str
deriving DecidableEq

/-- The typed result of parsing one line. -/
inductive ParsedLine where
  | entry : ParsedEntry → ParsedLine
  | boot_order : List Str → ParsedLine
  | boot_next : Str → ParsedLine
  | boot_current : Str → ParsedLine
  | timeout : Int → ParsedLine
deriving DecidableEq

/-- The non-entry productions of `parse_efibootmgr_line`: the chain of
`line.startswith(...)` tests, ending in `raise ValueError`. -/
def parse_efibootmgr_line_tail (line : Str) : Except PyErr ParsedLine :=
  if (str "BootOrder").isPrefixOf line then
    match (pySplitChar ':' line)[1]? with
    | none => .error .indexError
    | some v => .ok (.boot_order (pySplitChar ',' (pyStrip v)))
  else if (str "BootNext").isPrefixOf line then
    match (pySplitChar ':' line)[1]? with
    | none => .error .indexError
    | some v => .ok (.boot_next (pyStrip v))
  else if (str "BootCurrent").isPrefixOf line then
    match (pySplitChar ':' line)[1]? with
    | none => .error .indexError
    | some v => .ok (.boot_current (pyStrip v))
  else if (str "Timeout").isPrefixOf line then
    match (pySplitChar ':' line)[1]? with
    | none => .error .indexError
    | some v =>
      match (pySplitWs v)[0]? with
      | none => .error .indexError
      | some w =>
        match pyInt (pyStrip w) with
        | none => .error .valueError
        | some n => .ok (.timeout n)
  else .error .valueError

/-- `parse_efibootmgr_line(line)`: try the entry regular expression
first (requiring groups 1 and 3 to be non-empty, Python truthiness),
then the `startswith` chain; an unmatched line raises `ValueError`.
Only the `parameters` field is passed through the decoder. -/
def parse_efibootmgr_line (line : Str) : Except PyErr ParsedLine :=
  match reMatch efibootmgr_regex line with
  | some gs =>
    if (groupGet gs 1).getD [] ≠ [] ∧ (groupGet gs 3).getD [] ≠ [] then
      .ok (.entry
        { num := (groupGet gs 1).getD []
          active := (groupGet gs 2).isSome
          name := (groupGet gs 3).getD []
          path := (groupGet gs 4).getD []
          parameters := try_decode_efibootmgr ((groupGet gs 5).getD []) })
    else parse_efibootmgr_line_tail line
  | none => parse_efibootmgr_line_tail line

/-- The snapshot built by `parse_efibootmgr`. -/
structure ParsedEfi where
  entries : List ParsedEntry
  boot_order : List Str
  boot_next : Option Str
  boot_current : Option Str
  timeout : Option Int
deriving DecidableEq

/-- The empty snapshot `parse_efibootmgr` starts from. -/
def ParsedEfi.empty : ParsedEfi :=
  { entries := [], boot_order := [], boot_next := none,
    boot_current := none, timeout := none }

/-- The fold of `parse_efibootmgr`: each line is parsed; a `ValueError`
is caught and logged (line skipped); any other exception propagates. -/
def parse_efibootmgr_aux (acc : ParsedEfi) : List Str → Except PyErr ParsedEfi
  | [] => .ok acc
  | line :: rest =>
    match parse_efibootmgr_line line with
    | .ok (.entry e) => parse_efibootmgr_aux { acc with entries := acc.entries ++ [e] } rest
    | .ok (.boot_order l) => parse_efibootmgr_aux { acc with boot_order := l } rest
    | .ok (.boot_next v) => parse_efibootmgr_aux { acc with boot_next := some v } rest
    | .ok (.boot_current v) => parse_efibootmgr_aux { acc with boot_current := some v } rest
    | .ok (.timeout n) => parse_efibootmgr_aux { acc with timeout := some n } rest
    | .error .valueError => parse_efibootmgr_aux acc rest
    | .error e => .error e

/-- `parse_efibootmgr(boot)`: fold the lines into one snapshot. -/
def parse_efibootmgr (boot : List Str) : Except PyErr ParsedEfi :=
  parse_efibootmgr_aux ParsedEfi.empty boot

/-! ## The editable boot store (`EFIStore`)

The `Gtk.ListStore` rows (one per displayed boot entry) are modelled as
a list of records; tree iterators and paths become row indices.  GTK
rendering calls are presentation and are not modelled.

One Python aliasing detail is tracked explicitly: `refresh` executes
`self.boot_order = self.boot_order_initial = parsed_efi['boot_order']`,
making both names refer to the *same* list object, so the in-place
`self.boot_order.remove(num)` in `remove` also mutates
`boot_order_initial` — until a `swap` rebinds `boot_order` to a fresh
list.  The flag `order_aliased` records whether the two fields are
currently the same object. -/

/-- One row of the list store (columns `ROW_CURRENT … ROW_NEXT`). -/
structure Row where
  current : Bool
  num : Str
  name : Str
  path : Str
  parameters : Str
  active : Bool
  next : Bool
deriving DecidableEq

/-- The editable model: display rows plus the staged-edit collections. -/
structure EFIStore where
  esp : Str
  rows : List Row
  boot_order : List Str
  boot_order_initial : List Str
  boot_next : Option Str
  boot_next_initial : Option Str
  boot_active : List Str
  boot_inactive : List Str
  boot_add : List (Str × Str × Str × Str)
  boot_remove : List Str
  boot_current : Option Str
  timeout : Option Int
  timeout_initial : Option Int
  order_aliased : Bool
deriving DecidableEq

namespace EFIStore

/-- `clear()`: empty the list store and reset every staged field. -/
def clear (st : EFIStore) : EFIStore :=
  { st with
    rows := [], boot_order := [], boot_order_initial := [],
    boot_next := none, boot_next_initial := none,
    boot_active := [], boot_inactive := [], boot_add := [], boot_remove := [],
    boot_current := none, timeout := none, timeout_initial := none,
    order_aliased := false }

/-- The inner loop of `index_num`: first row index whose `num` matches. -/
def index_num_aux (num : Str) : List Row → Nat → Option Nat
  | [], _ => none
  | r :: rs, i => if r.num = num then some i else index_num_aux num rs (i + 1)

/-- `index_num(num)`: index of the first row with boot number `num`. -/
def index_num (st : EFIStore) (num : Str) : Option Nat :=
  index_num_aux num st.rows 0

/-- `reorder()`: build the permutation `new_order` (row indices of the
`boot_order` ids that are present, then every remaining row index),
assert it covers all rows, and apply it (`gtk_list_store_reorder`:
the row at new position `k` is the old row at `new_order[k]`).
`none` models the `assert` failing. -/
def reorder (st : EFIStore) : Option EFIStore :=
  let new_order₁ := st.boot_order.foldl (fun acc bootnum =>
    match index_num_aux bootnum st.rows 0 with
    | none => acc
    | some index => acc ++ [index]) []
  let new_order := (List.range st.rows.length).foldl (fun acc i =>
    if i ∈ acc then acc else acc ++ [i]) new_order₁
  if new_order.length = st.rows.length then
    some { st with rows := new_order.filterMap (fun i => st.rows[i]?) }
  else none

/-- The row `refresh` appends for one parsed entry. -/
def mkRow (parsed : ParsedEfi) (e : ParsedEntry) : Row :=
  { current := parsed.boot_current == some e.num
    num := e.num
    name := e.name
    path := e.path
    parameters := e.parameters
    active := e.active
    next := parsed.boot_next == some e.num }

/-- `refresh()` after a successful `efibootmgr -v` run that produced
`parsed`: clear, append one row per entry, install the snapshot fields
(`boot_order` and `boot_order_initial` become the same list object),
and `reorder`.  The spin-button update is presentation. -/
def refresh (st : EFIStore) (parsed : ParsedEfi) : Option EFIStore :=
  let st := st.clear
  let st := { st with
    rows := parsed.entries.map (mkRow parsed)
    boot_order := parsed.boot_order
    boot_order_initial := parsed.boot_order
    boot_next := parsed.boot_next
    boot_next_initial := parsed.boot_next
    boot_current := parsed.boot_current
    timeout := parsed.timeout
    timeout_initial := parsed.timeout
    order_aliased := true }
  st.reorder

/-- Swap two list elements by index (no-op on an invalid index). -/
def listSwap {α : Type} (l : List α) (a b : Nat) : List α :=
  match l[a]?, l[b]? with
  | some x, some y => (l.set a y).set b x
  | _, _ => l

/-- `swap(a, b)`: swap the two rows, then rebuild `boot_order` from the
row order (a fresh list, ending the aliasing with
`boot_order_initial`). -/
def swap (st : EFIStore) (a b : Nat) : EFIStore :=
  let rows := listSwap st.rows a b
  { st with rows := rows, boot_order := rows.map (·.num), order_aliased := false }

/-- `change_boot_next(widget, path)` with `path` the index of the
selected row: toggle that row's NextBoot flag (updating `boot_next`
accordingly) and clear the flag on every other row. -/
def change_boot_next (st : EFIStore) (i : Nat) : EFIStore :=
  match st.rows[i]? with
  | none => { st with rows := st.rows.map (fun r => { r with next := false }) }
  | some r =>
    let rows := st.rows.enum.map (fun p =>
      if p.1 = i then { p.2 with next := !p.2.next } else { p.2 with next := false })
    { st with
      rows := rows
      boot_next := if !r.next then some r.num else none }

/-- `change_active(widget, path)` with `path` the index of the selected
row: toggle the row's Active flag and move its id between the
`boot_active`/`boot_inactive` staging lists. -/
def change_active (st : EFIStore) (i : Nat) : EFIStore :=
  match st.rows[i]? with
  | none => st
  | some r =>
    let active' := !r.active
    let rows := st.rows.set i { r with active := active' }
    if active' then
      if r.num ∈ st.boot_inactive then
        { st with rows := rows, boot_inactive := st.boot_inactive.erase r.num }
      else { st with rows := rows, boot_active := st.boot_active ++ [r.num] }
    else
      if r.num ∈ st.boot_active then
        { st with rows := rows, boot_active := st.boot_active.erase r.num }
      else { st with rows := rows, boot_inactive := st.boot_inactive ++ [r.num] }

/-- `change_timeout(timeout_spin)`: install the spin button's value. -/
def change_timeout (st : EFIStore) (t : Int) : EFIStore :=
  { st with timeout := some t }

/-- Decimal rendering of a natural number (`"{:d}".format(n)`). -/
def natStr (n : Nat) : Str := (toString n).data

/-- `add(label, path, parameters)`: insert a placeholder row
`NEW<count>` at the top of the display and record the staged addition. -/
def add (st : EFIStore) (label path parameters : Str) : EFIStore :=
  let new_num := str "NEW" ++ natStr st.boot_add.length
  { st with
    rows := { current := false, num := new_num, name := label, path := path,
              parameters := parameters, active := true, next := false } :: st.rows
    boot_add := st.boot_add ++ [(new_num, label, path, parameters)] }

/-- One iteration of the `for row in self` loop of `remove`: when the
row's id matches, append it to `boot_remove` and delete its first
occurrence from `boot_order` (`none` models the `ValueError` raised by
`list.remove` when the id is absent). -/
def remove_loop_step (num : Str) (acc : Option (List Str × List Str)) (row : Row) :
    Option (List Str × List Str) :=
  match acc with
  | none => none
  | some (brem, border) =>
    if row.num = num then
      if num ∈ border then some (brem ++ [num], border.erase num)
      else none
    else acc

/-- `remove(row_index, row_iter)` with `i` the selected row's index.
A placeholder row only cancels its staged addition.  Otherwise, for
each row whose id matches, the id is appended to `boot_remove` and
removed (`list.remove`, first occurrence) from `boot_order` — `none`
models the uncaught `ValueError` when the id is not in `boot_order`.
The in-place `boot_order.remove` also mutates `boot_order_initial`
while the two are aliased.  Finally the row itself is deleted. -/
def remove (st : EFIStore) (i : Nat) : Option EFIStore :=
  match st.rows[i]? with
  | none => none
  | some r =>
    let num := r.num
    if (str "NEW").isPrefixOf num then
      some { st with
        boot_add := st.boot_add.filter (fun e => e.1 ≠ num)
        rows := st.rows.eraseIdx i }
    else
      let looped := st.rows.foldl (remove_loop_step num) (some (st.boot_remove, st.boot_order))
      match looped with
      | none => none
      | some (brem, border) =>
        some { st with
          boot_remove := brem
          boot_order := border
          boot_order_initial := if st.order_aliased then border else st.boot_order_initial
          rows := st.rows.eraseIdx i }

/-- `pending_changes()`: the disjunction the source tests, in source
order. -/
def pending_changes (st : EFIStore) : Bool :=
  (st.boot_next_initial != st.boot_next) ||
  (st.boot_order_initial != st.boot_order) ||
  !st.boot_add.isEmpty || !st.boot_remove.isEmpty ||
  !st.boot_active.isEmpty || !st.boot_inactive.isEmpty ||
  (st.timeout != st.timeout_initial)

/-- `','.join(l)`. -/
def joinComma (l : List Str) : Str := (l.intersperse (str ",")).flatten

/-- Python `str(…)` of the timeout field (an `int`, or `None`). -/
def optIntStr : Option Int → Str
  | none => str "None"
  | some i => (toString i).data

/-- `__str__`: the command plan, accumulated exactly as the source
appends to its local string. -/
def efistore_str (st : EFIStore) : Str :=
  let esp := st.esp
  let s : Str := []
  let s := st.boot_remove.foldl (fun acc entry =>
    acc ++ (str "efibootmgr " ++ esp ++ str " --delete-bootnum --bootnum " ++ entry ++ str "\n")) s
  let s := st.boot_add.foldl (fun acc t =>
    acc ++ (str "efibootmgr " ++ esp ++ str " --create --label '" ++ t.2.1 ++
    str "' --loader '" ++ t.2.2.1 ++ str "' --unicode '" ++ t.2.2.2 ++ str "'\n")) s
  let s := if st.boot_order ≠ st.boot_order_initial then
      s ++ (str "efibootmgr " ++ esp ++ str " --bootorder " ++ joinComma st.boot_order ++ str "\n")
    else s
  let s := if st.boot_next_initial ≠ st.boot_next then
      match st.boot_next with
      | none => s ++ (str "efibootmgr " ++ esp ++ str " --delete-bootnext\n")
      | some nxt => s ++ (str "efibootmgr " ++ esp ++ str " --bootnext " ++ nxt ++ str "\n")
    else s
  let s := st.boot_active.foldl (fun acc entry =>
    acc ++ (str "efibootmgr " ++ esp ++ str " --bootnum " ++ entry ++ str " --active\n")) s
  let s := st.boot_inactive.foldl (fun acc entry =>
    acc ++ (str "efibootmgr " ++ esp ++ str " --bootnum " ++ entry ++ str " --inactive\n")) s
  let s := if st.timeout ≠ st.timeout_initial then
      s ++ (str "efibootmgr " ++ esp ++ str " --timeout " ++ optIntStr st.timeout ++ str "\n")
    else s
  s

/-- `apply_changes()`: run the plan through the privileged executor
(modelled by its success flag); on success `refresh` from a fresh
snapshot, on failure show the error dialog and leave the store
untouched. -/
def apply_changes (st : EFIStore) (execSuccess : Bool) (fresh : ParsedEfi) : Option EFIStore :=
  if execSuccess then st.refresh fresh else some st

end EFIStore

/-! ## Helper definitions shared by the claim theorems -/

/-- A freshly constructed store (`__init__` stores the esp target and
calls `clear()`). -/
def initStore (esp : Str) : EFIStore :=
  { esp := esp
    rows := [], boot_order := [], boot_order_initial := []
    boot_next := none, boot_next_initial := none
    boot_active := [], boot_inactive := [], boot_add := [], boot_remove := []
    boot_current := none, timeout := none, timeout_initial := none
    order_aliased := false }

/-- The §4.5 command plan as the spec words it: the concatenation, in
the fixed order, of the delete lines, the create lines, the optional
bootorder line, the optional bootnext/delete-bootnext line, the active
lines, the inactive lines, and the optional timeout line. -/
def planSpec (st : EFIStore) : Str :=
  (st.boot_remove.map (fun e =>
    str "efibootmgr " ++ st.esp ++ str " --delete-bootnum --bootnum " ++ e ++ str "\n")).flatten
  ++ (st.boot_add.map (fun t =>
    str "efibootmgr " ++ st.esp ++ str " --create --label '" ++ t.2.1 ++
    str "' --loader '" ++ t.2.2.1 ++ str "' --unicode '" ++ t.2.2.2 ++ str "'\n")).flatten
  ++ (if st.boot_order ≠ st.boot_order_initial then
        str "efibootmgr " ++ st.esp ++ str " --bootorder " ++
          EFIStore.joinComma st.boot_order ++ str "\n"
      else [])
  ++ (if st.boot_next_initial ≠ st.boot_next then
        match st.boot_next with
        | none => str "efibootmgr " ++ st.esp ++ str " --delete-bootnext\n"
        | some nxt => str "efibootmgr " ++ st.esp ++ str " --bootnext " ++ nxt ++ str "\n"
      else [])
  ++ (st.boot_active.map (fun e =>
    str "efibootmgr " ++ st.esp ++ str " --bootnum " ++ e ++ str " --active\n")).flatten
  ++ (st.boot_inactive.map (fun e =>
    str "efibootmgr " ++ st.esp ++ str " --bootnum " ++ e ++ str " --inactive\n")).flatten
  ++ (if st.timeout ≠ st.timeout_initial then
        str "efibootmgr " ++ st.esp ++ str " --timeout " ++
          EFIStore.optIntStr st.timeout ++ str "\n"
      else [])

/-- A string-building left fold that appends one piece per element
equals the flattened map of the pieces. -/
theorem foldl_append_shape {α : Type} (step : Str → α → Str) (f : α → Str)
    (h : ∀ acc e, step acc e = acc ++ f e) (l : List α) (acc : Str) :
    l.foldl step acc = acc ++ (l.map f).flatten := by
  induction l generalizing acc with
  | nil => simp
  | cons x xs ih =>
    rw [List.foldl_cons, h, ih, List.map_cons, List.flatten_cons, List.append_assoc]

/-! ## C1 — command-planner ordering -/

/-- The working state of the C1 scenario: staged removal `0003`, staged
addition `("L", "\EFI\l.efi", "p")`, working order `0002,0001` against
baseline `0001,0002,0003`, working next `0002` against baseline none. -/
def c1_store : EFIStore :=
  { initStore (str "--disk /dev/sda --part 1") with
    boot_remove := [str "0003"]
    boot_add := [(str "NEW0", str "L", str "\\EFI\\l.efi", str "p")]
    boot_order := [str "0002", str "0001"]
    boot_order_initial := [str "0001", str "0002", str "0003"]
    boot_next := some (str "0002")
    boot_next_initial := none }

set_option maxRecDepth 100000 in
/-- C1: the command planner emits command lines in the fixed order of
`planSpec` — delete lines for the staged removals, create lines for the
staged additions, a bootorder line when the working order differs from
baseline, a bootnext (or delete-bootnext) line when the working next
differs, active lines, inactive lines, and a timeout line when the
timeout differs; in particular the stated scenario plans exactly a
delete line for 0003, a create line for label L, a bootorder line
`0002,0001` and a bootnext line for 0002, in that order. -/
theorem C1_planner_order :
    (∀ st : EFIStore, EFIStore.efistore_str st = planSpec st) ∧
    EFIStore.efistore_str c1_store =
      str "efibootmgr --disk /dev/sda --part 1 --delete-bootnum --bootnum 0003\nefibootmgr --disk /dev/sda --part 1 --create --label 'L' --loader '\\EFI\\l.efi' --unicode 'p'\nefibootmgr --disk /dev/sda --part 1 --bootorder 0002,0001\nefibootmgr --disk /dev/sda --part 1 --bootnext 0002\n" := by
  constructor
  · intro st
    simp only [EFIStore.efistore_str, planSpec]
    rw [foldl_append_shape _
      (fun entry => str "efibootmgr " ++ st.esp ++ str " --delete-bootnum --bootnum " ++ entry ++ str "\n")
      (fun _ _ => rfl) st.boot_remove,
      foldl_append_shape _
      (fun t => str "efibootmgr " ++ st.esp ++ str " --create --label '" ++ t.2.1 ++
        str "' --loader '" ++ t.2.2.1 ++ str "' --unicode '" ++ t.2.2.2 ++ str "'\n")
      (fun _ _ => rfl) st.boot_add,
      foldl_append_shape _
      (fun entry => str "efibootmgr " ++ st.esp ++ str " --bootnum " ++ entry ++ str " --active\n")
      (fun _ _ => rfl) st.boot_active,
      foldl_append_shape _
      (fun entry => str "efibootmgr " ++ st.esp ++ str " --bootnum " ++ entry ++ str " --inactive\n")
      (fun _ _ => rfl) st.boot_inactive]
    split_ifs <;> cases st.boot_next <;> simp [List.append_assoc]
  · decide

/-! ## C5 — `pending_changes` -/

/-- The spec's disjunction for `pendingChanges()`. -/
def pendingSpec (st : EFIStore) : Prop :=
  st.boot_order ≠ st.boot_order_initial ∨ st.boot_next ≠ st.boot_next_initial ∨
  st.timeout ≠ st.timeout_initial ∨ st.boot_add ≠ [] ∨ st.boot_remove ≠ [] ∨
  st.boot_active ≠ [] ∨ st.boot_inactive ≠ []

/-- Folding `remove_loop_step` from a failure stays a failure. -/
theorem remove_loop_none (num : Str) (rows : List Row) :
    rows.foldl (EFIStore.remove_loop_step num) none = none := by
  induction rows with
  | nil => rfl
  | cons r rs ih => simpa [EFIStore.remove_loop_step] using ih

/-- A successful `remove` loop appends the id once per matching row. -/
theorem remove_loop_length (num : Str) (rows : List Row) :
    ∀ (brem border : List Str) (res : List Str × List Str),
    rows.foldl (EFIStore.remove_loop_step num) (some (brem, border)) = some res →
    res.1.length = brem.length + (rows.filter (fun row => row.num = num)).length := by
  induction rows with
  | nil => intro brem border res h; cases h; simp
  | cons r rs ih =>
    intro brem border res h
    rw [List.foldl_cons] at h
    by_cases hm : r.num = num
    · simp only [EFIStore.remove_loop_step, hm, if_pos] at h
      by_cases hb : num ∈ border
      · rw [if_pos hb] at h
        have := ih (brem ++ [num]) (border.erase num) res h
        simp [this, hm, List.length_append]
        omega
      · rw [if_neg hb] at h
        rw [remove_loop_none] at h
        cases h
    · simp only [EFIStore.remove_loop_step, hm, if_neg, if_false] at h
      have := ih brem border res h
      simp [this, hm]

example (st : EFIStore) : EFIStore.pending_changes st = true ↔ pendingSpec st := by
  simp [EFIStore.pending_changes, pendingSpec, Bool.or_eq_true, bne_iff_ne,
    List.isEmpty_iff]
  tauto

/-- C5: `pending_changes()` is true iff the working order, next or
timeout differs from its baseline or one of the staged collections is
non-empty (`pendingSpec`); it is false immediately after a successful
`refresh`, and true immediately after each single effective staged
mutation from a clean state: an add, a remove of a non-placeholder row,
an activation toggle, an order-changing swap, a next-boot change, or a
timeout change. -/
theorem C5_pending_changes :
    (∀ st : EFIStore, EFIStore.pending_changes st = true ↔ pendingSpec st) ∧
    (∀ (st : EFIStore) (parsed : ParsedEfi) (st' : EFIStore),
      st.refresh parsed = some st' → EFIStore.pending_changes st' = false) ∧
    (∀ (st : EFIStore) (label path params : Str),
      EFIStore.pending_changes (st.add label path params) = true) ∧
    (∀ (st : EFIStore) (i : Nat) (r : Row) (st' : EFIStore),
      st.rows[i]? = some r → (str "NEW").isPrefixOf r.num = false →
      st.remove i = some st' → EFIStore.pending_changes st' = true) ∧
    (∀ (st : EFIStore) (i : Nat) (r : Row),
      st.rows[i]? = some r → st.boot_active = [] → st.boot_inactive = [] →
      EFIStore.pending_changes (st.change_active i) = true) ∧
    (∀ (st : EFIStore) (a b : Nat),
      (st.swap a b).boot_order ≠ st.boot_order_initial →
      EFIStore.pending_changes (st.swap a b) = true) ∧
    (∀ (st : EFIStore) (i : Nat) (r : Row),
      st.rows[i]? = some r → r.next = false → st.boot_next_initial ≠ some r.num →
      EFIStore.pending_changes (st.change_boot_next i) = true) ∧
    (∀ (st : EFIStore) (t : Int),
      some t ≠ st.timeout_initial →
      EFIStore.pending_changes (st.change_timeout t) = true) := by
  refine ⟨?_, ?_, ?_, ?_, ?_, ?_, ?_, ?_⟩
  · intro st
    simp [EFIStore.pending_changes, pendingSpec, Bool.or_eq_true, bne_iff_ne, List.isEmpty_iff]
    tauto
  · intro st parsed st' h
    unfold EFIStore.refresh EFIStore.reorder at h
    simp only [Option.ite_none_right_eq_some, Option.some.injEq] at h
    obtain ⟨-, h⟩ := h
    subst h
    simp [EFIStore.pending_changes, EFIStore.clear]
  · intro st label path params
    simp [EFIStore.pending_changes, EFIStore.add]
  · intro st i r st' hrow hpre h
    unfold EFIStore.remove at h
    rw [hrow] at h
    simp only [hpre, Bool.false_eq_true, if_false] at h
    rcases hl : st.rows.foldl (EFIStore.remove_loop_step r.num) (some (st.boot_remove, st.boot_order)) with _ | res
    · rw [hl] at h; cases h
    · rw [hl] at h
      injection h with h
      subst h
      have hlen := remove_loop_length r.num st.rows st.boot_remove st.boot_order res hl
      have hmem : r ∈ st.rows := by
        have := List.getElem?_eq_some_iff.mp hrow
        rcases this with ⟨hi, hget⟩
        exact hget ▸ List.getElem_mem hi
      have hfil : r ∈ st.rows.filter (fun row => row.num = r.num) :=
        List.mem_filter.mpr ⟨hmem, by simp⟩
      have : st.rows.filter (fun row => row.num = r.num) ≠ [] := by
        intro hnil; rw [hnil] at hfil; cases hfil
      have hpos : 0 < (st.rows.filter (fun row => row.num = r.num)).length :=
        List.length_pos.mpr this
      have : res.1 ≠ [] := by
        intro hnil
        rw [hnil] at hlen
        simp at hlen
        omega
      simp [EFIStore.pending_changes, List.isEmpty_iff, this]
  · intro st i r hrow ha hi
    simp only [EFIStore.change_active, hrow]
    split_ifs <;>
      simp_all [EFIStore.pending_changes, List.isEmpty_iff]
  · intro st a b h
    have hb : ((st.swap a b).boot_order_initial != (st.swap a b).boot_order) = true :=
      bne_iff_ne.mpr (fun hh => h hh.symm)
    simp [EFIStore.pending_changes, hb]
  · intro st i r hrow hnext hne
    simp [EFIStore.change_boot_next, hrow, hnext, EFIStore.pending_changes, bne_iff_ne]
    tauto
  · intro st t hne
    simp [EFIStore.change_timeout, EFIStore.pending_changes, bne_iff_ne]
    tauto

/-- A small snapshot used to witness C5. -/
def c5_parsed : ParsedEfi :=
  { entries := [{ num := str "0001", active := true, name := str "A", path := [], parameters := [] },
                { num := str "0002", active := false, name := str "B", path := [], parameters := [] }]
    boot_order := [str "0001", str "0002"]
    boot_next := none, boot_current := none, timeout := some 5 }

/-- The store state after refreshing from `c5_parsed`. -/
def c5_refreshed : EFIStore :=
  { esp := str "--disk /dev/sda --part 1"
    rows := [⟨false, str "0001", str "A", [], [], true, false⟩,
             ⟨false, str "0002", str "B", [], [], false, false⟩]
    boot_order := [str "0001", str "0002"]
    boot_order_initial := [str "0001", str "0002"]
    boot_next := none, boot_next_initial := none
    boot_active := [], boot_inactive := [], boot_add := [], boot_remove := []
    boot_current := none, timeout := some 5, timeout_initial := some 5
    order_aliased := true }

/-- The store state after `remove(0)` on `c5_refreshed`. -/
def c5_removed : EFIStore :=
  { esp := str "--disk /dev/sda --part 1"
    rows := [⟨false, str "0002", str "B", [], [], false, false⟩]
    boot_order := [str "0002"]
    boot_order_initial := [str "0002"]
    boot_next := none, boot_next_initial := none
    boot_active := [], boot_inactive := [], boot_add := []
    boot_remove := [str "0001"]
    boot_current := none, timeout := some 5, timeout_initial := some 5
    order_aliased := true }

theorem C5_pending_changes_witness :
    EFIStore.pending_changes c5_refreshed = false ∧
    EFIStore.pending_changes (c5_refreshed.change_timeout 9) = true ∧
    EFIStore.pending_changes (c5_refreshed.change_active 0) = true ∧
    EFIStore.pending_changes (c5_refreshed.change_boot_next 0) = true ∧
    EFIStore.pending_changes (c5_refreshed.swap 0 1) = true ∧
    EFIStore.pending_changes c5_removed = true :=
  ⟨C5_pending_changes.2.1 (initStore (str "--disk /dev/sda --part 1")) c5_parsed c5_refreshed (by decide),
   C5_pending_changes.2.2.2.2.2.2.2 c5_refreshed 9 (by decide),
   C5_pending_changes.2.2.2.2.1 c5_refreshed 0 ⟨false, str "0001", str "A", [], [], true, false⟩ (by decide) rfl rfl,
   C5_pending_changes.2.2.2.2.2.2.1 c5_refreshed 0 ⟨false, str "0001", str "A", [], [], true, false⟩ (by decide) rfl (by decide),
   C5_pending_changes.2.2.2.2.2.1 c5_refreshed 0 1 (by decide),
   C5_pending_changes.2.2.2.1 c5_refreshed 0 ⟨false, str "0001", str "A", [], [], true, false⟩ c5_removed (by decide) (by decide) (by decide)⟩

/-! ## C4 — totality of parsing (code bug) -/

/-- C4 (code bug): parsing is not total.  A line that merely starts
with `BootOrder` but has no colon — e.g. the single input line
`"BootOrder"` — raises an uncaught `IndexError` from
`line.split(':')[1]` and aborts `parse_efibootmgr` (only `ValueError`
is caught), where the claim requires it to be dropped with a warning.
A line matching no production at all is, as claimed, absorbed: the
`ValueError` it raises is caught and the remaining lines still
contribute. -/
theorem C4_parsing_not_total :
    parse_efibootmgr [str "BootOrder"] = .error .indexError ∧
    parse_efibootmgr [str "garbage", str "BootNext: 0001"] =
      .ok { ParsedEfi.empty with boot_next := some (str "0001") } :=
  ⟨by decide, by decide⟩

/-! ## C8 — state after a commit attempt -/

/-- A store with a pending staged addition, used to exhibit the failing
commit path. -/
def c8_store : EFIStore :=
  { initStore (str "--disk /dev/sda --part 1") with
    boot_add := [(str "NEW0", str "L", str "\\EFI\\l.efi", str "p")] }

/-- C8 counterexample: when the privileged executor fails,
`apply_changes` leaves the store exactly as it was and does **not**
re-derive the state via `refresh` — the result differs from what a
refresh would have produced, so refresh is not invoked after every
commit attempt. -/
theorem C8_counterexample :
    EFIStore.apply_changes c8_store false ParsedEfi.empty = some c8_store ∧
    EFIStore.apply_changes c8_store false ParsedEfi.empty ≠ c8_store.refresh ParsedEfi.empty :=
  ⟨rfl, by decide⟩

/-- C8 (amended): `apply_changes` re-derives the authoritative state
via a fresh read only after a *successful* commit; on executor failure
it shows the error and leaves the working copy untouched. -/
theorem C8_refresh_only_on_success :
    (∀ (st : EFIStore) (fresh : ParsedEfi), st.apply_changes true fresh = st.refresh fresh) ∧
    (∀ (st : EFIStore) (fresh : ParsedEfi), st.apply_changes false fresh = some st) :=
  ⟨fun _ _ => rfl, fun _ _ => rfl⟩

/-! ## C10 — placeholder ids leak into the planned boot order -/

/-- The snapshot refreshed before the C10 edit sequence. -/
def c10_parsed : ParsedEfi :=
  { entries := [{ num := str "0001", active := true, name := str "A", path := [], parameters := [] },
                { num := str "0002", active := true, name := str "B", path := [], parameters := [] }]
    boot_order := [str "0001", str "0002"]
    boot_next := none, boot_current := none, timeout := none }

set_option maxRecDepth 100000 in
/-- C10: after staging an addition (placeholder `NEW0`, inserted at the
front of the display) and one swap, the working boot order is rebuilt
from the displayed rows and contains the placeholder, and the emitted
`--bootorder` command line includes `NEW0` rather than only real
hexadecimal ids. -/
theorem C10_placeholder_in_bootorder :
    ((initStore (str "--disk /dev/sda --part 1")).refresh c10_parsed).map
      (fun st => ((st.add (str "L") (str "\\EFI\\l.efi") (str "p")).swap 0 1).boot_order)
      = some [str "0001", str "NEW0", str "0002"] ∧
    ((initStore (str "--disk /dev/sda --part 1")).refresh c10_parsed).map
      (fun st => EFIStore.efistore_str ((st.add (str "L") (str "\\EFI\\l.efi") (str "p")).swap 0 1))
      = some (str "efibootmgr --disk /dev/sda --part 1 --create --label 'L' --loader '\\EFI\\l.efi' --unicode 'p'\nefibootmgr --disk /dev/sda --part 1 --bootorder 0001,NEW0,0002\n") ∧
    str "NEW0" <:+: str "efibootmgr --disk /dev/sda --part 1 --create --label 'L' --loader '\\EFI\\l.efi' --unicode 'p'\nefibootmgr --disk /dev/sda --part 1 --bootorder 0001,NEW0,0002\n" :=
  ⟨by decide, by decide, by decide⟩

/-! ## C2 — reconciliation (counterexample part; the amended theorem
follows later) -/

/-- A snapshot whose boot order repeats an id that matches an entry. -/
def c2_bad_parsed : ParsedEfi :=
  { entries := [{ num := str "0001", active := true, name := str "A", path := [], parameters := [] }]
    boot_order := [str "0001", str "0001"]
    boot_next := none, boot_current := none, timeout := none }

/-- C2 counterexample: `refresh` does not survive every snapshot — on a
boot order that repeats a matched id the reorder `assert` fires
(modelled as `none`), so no reconciled working order results at all. -/
theorem C2_counterexample :
    (initStore (str "--disk /dev/sda --part 1")).refresh c2_bad_parsed = none := by decide

/-! ## C3 — decoder round trip (counterexample part; the amended
theorem follows later) -/

/-- C3 counterexample: the encoding of the single-character string
`"A"` is `"A."`, which the decoder's lone-trailing-dot special case
returns unchanged — the round trip yields `"A."`, not `"A"`. -/
theorem C3_counterexample :
    try_decode_efibootmgr (encodeScheme (str "A")) = str "A." ∧ str "A." ≠ str "A" :=
  ⟨by decide, by decide⟩

/-! ## C6 — entry grammar (counterexample part; the amended theorem
follows later) -/

set_option maxRecDepth 100000 in
/-- C6 counterexample: on `Boot0001* A<TAB>B<TAB>)` — a line matching
the grammar with `NAME = "A"` (everything up to the *first* tab) and
`SUFFIX = "B<TAB>)"` — the greedy regular expression captures the name
`"A<TAB>B"`, everything up to the *last* feasible tab, not the first. -/
theorem C6_counterexample :
    parse_efibootmgr_line (str "Boot0001* A\tB\t)") =
      .ok (.entry { num := str "0001", active := true, name := str "A\tB",
                    path := [], parameters := [] }) ∧
    ((str "Boot0001* A\tB\t)").drop 10).takeWhile (fun c => c ≠ '\t') = str "A" ∧
    str "A\tB" ≠ str "A" :=
  ⟨by decide, by decide, by decide⟩

/-! ## C7 — `remove` semantics -/

/-- A store whose single entry `0001` is the boot-next target and has a
staged activation. -/
def c7_store : EFIStore :=
  { initStore (str "--disk /dev/sda --part 1") with
    rows := [⟨false, str "0001", str "A", [], [], true, true⟩]
    boot_order := [str "0001"]
    boot_order_initial := [str "0001"]
    boot_next := some (str "0001"), boot_next_initial := some (str "0001")
    boot_active := [str "0001"]
    order_aliased := true }

/-- C7 counterexample: removing entry `0001` moves it into the removals
and out of the boot order, but leaves `boot_next` and `boot_active`
still referencing it — `remove` never touches the next-boot field or
the activation sets, contrary to the claim. -/
theorem C7_counterexample :
    (c7_store.remove 0).map
      (fun st => (st.boot_remove, st.boot_order, st.boot_next, st.boot_active)) =
      some ([str "0001"], [], some (str "0001"), [str "0001"]) := by decide

/-- Folding `remove_loop_step` over rows none of which match leaves the
accumulator unchanged. -/
theorem remove_loop_no_match (num : Str) (rows : List Row)
    (hn : ∀ row ∈ rows, row.num ≠ num) (acc : Option (List Str × List Str)) :
    rows.foldl (EFIStore.remove_loop_step num) acc = acc := by
  induction rows generalizing acc with
  | nil => rfl
  | cons r rs ih =>
    have hr : r.num ≠ num := hn r (List.mem_cons_self _ _)
    rw [List.foldl_cons]
    have hstep : EFIStore.remove_loop_step num acc r = acc := by
      cases acc with
      | none => rfl
      | some p => simp [EFIStore.remove_loop_step, hr]
    rw [hstep]
    exact ih (fun row hm => hn row (List.mem_cons_of_mem _ hm)) acc

/-- When exactly one row matches, a successful `remove` loop appends the
id once and erases its first occurrence from the boot order. -/
theorem remove_loop_unique (num : Str) (rows : List Row) :
    ∀ (brem border : List Str) (res : List Str × List Str),
    (rows.filter (fun row => row.num = num)).length = 1 →
    rows.foldl (EFIStore.remove_loop_step num) (some (brem, border)) = some res →
    res = (brem ++ [num], border.erase num) := by
  induction rows with
  | nil => intro brem border res h1 _; simp at h1
  | cons r rs ih =>
    intro brem border res h1 h
    rw [List.foldl_cons] at h
    by_cases hm : r.num = num
    · have hrs : ∀ row ∈ rs, row.num ≠ num := by
        intro row hmem hq
        rw [List.filter_cons_of_pos (by simp [hm])] at h1
        simp only [List.length_cons] at h1
        have h0 : (rs.filter (fun row => row.num = num)).length = 0 := by omega
        have : row ∈ rs.filter (fun row => row.num = num) :=
          List.mem_filter.mpr ⟨hmem, by simp [hq]⟩
        rw [List.length_eq_zero.mp h0] at this
        cases this
      simp only [EFIStore.remove_loop_step, hm, if_pos] at h
      by_cases hb : num ∈ border
      · rw [if_pos hb, remove_loop_no_match num rs hrs] at h
        injection h with h
        exact h.symm
      · rw [if_neg hb, remove_loop_none] at h
        cases h
    · rw [List.filter_cons_of_neg (by simp [hm])] at h1
      have hstep : EFIStore.remove_loop_step num (some (brem, border)) r =
          some (brem, border) := by simp [EFIStore.remove_loop_step, hm]
      rw [hstep] at h
      exact ih brem border res h1 h

/-- C7 (amended): for a non-placeholder row, `remove` moves the id into
the removals, deletes the row, and (when exactly one row carries the
id) erases the id's first occurrence from the boot order — but it
leaves `boot_next` and the activation/deactivation sets untouched; for
a placeholder (`NEW<n>`) row it only drops the staged addition and the
row, leaving the removals (and everything else) unchanged. -/
theorem C7_remove_semantics :
    (∀ (st : EFIStore) (i : Nat) (r : Row) (st' : EFIStore),
      st.rows[i]? = some r → (str "NEW").isPrefixOf r.num = false →
      st.remove i = some st' →
      st'.boot_next = st.boot_next ∧ st'.boot_active = st.boot_active ∧
      st'.boot_inactive = st.boot_inactive ∧ st'.rows = st.rows.eraseIdx i ∧
      ((st.rows.filter (fun row => row.num = r.num)).length = 1 →
        st'.boot_remove = st.boot_remove ++ [r.num] ∧
        st'.boot_order = st.boot_order.erase r.num)) ∧
    (∀ (st : EFIStore) (i : Nat) (r : Row),
      st.rows[i]? = some r → (str "NEW").isPrefixOf r.num = true →
      st.remove i = some { st with
        boot_add := st.boot_add.filter (fun e => e.1 ≠ r.num)
        rows := st.rows.eraseIdx i }) := by
  constructor
  · intro st i r st' hrow hpre h
    unfold EFIStore.remove at h
    rw [hrow] at h
    simp only [hpre, Bool.false_eq_true, if_false] at h
    rcases hl : st.rows.foldl (EFIStore.remove_loop_step r.num)
        (some (st.boot_remove, st.boot_order)) with _ | res
    · rw [hl] at h; cases h
    · rw [hl] at h
      injection h with h
      subst h
      refine ⟨rfl, rfl, rfl, rfl, fun huniq => ?_⟩
      have := remove_loop_unique r.num st.rows st.boot_remove st.boot_order res huniq hl
      rw [this]
      exact ⟨rfl, rfl⟩
  · intro st i r hrow hpre
    unfold EFIStore.remove
    rw [hrow]
    simp only [hpre, if_true]

/-- No branch of the `startswith` chain produces an entry. -/
theorem parse_tail_not_entry (line : Str) (e : ParsedEntry) :
    parse_efibootmgr_line_tail line ≠ .ok (.entry e) := by
  unfold parse_efibootmgr_line_tail
  split_ifs <;> intro h <;> (repeat' split at h) <;> simp at h

/-- C9 (amended): for every parsed entry line the snapshot stores the
*raw* captured name text, undecoded; only the parameters field is
passed through `try_decode_efibootmgr`. -/
theorem C9_name_not_decoded :
    ∀ (line : Str) (gs : Groups) (e : ParsedEntry),
      reMatch efibootmgr_regex line = some gs →
      parse_efibootmgr_line line = .ok (.entry e) →
      e.name = (groupGet gs 3).getD [] ∧
      e.parameters = try_decode_efibootmgr ((groupGet gs 5).getD []) := by
  intro line gs e hm h
  unfold parse_efibootmgr_line at h
  rw [hm] at h
  dsimp only at h
  split_ifs at h
  · injection h with h
    injection h with h
    rw [← h]
    exact ⟨rfl, rfl⟩
  · exact absurd h (parse_tail_not_entry line e)

set_option maxRecDepth 100000 in
/-- Witness for C9: the amended theorem applied to a concrete line. -/
theorem C9_name_not_decoded_witness :
    (str "N" : Str) = (groupGet [(1, str "0002"), (2, str "*"), (3, str "N"), (5, [])] 3).getD [] ∧
    ([] : Str) = try_decode_efibootmgr ((groupGet [(1, str "0002"), (2, str "*"), (3, str "N"), (5, [])] 5).getD []) :=
  C9_name_not_decoded (str "Boot0002* N\t)")
    [(1, str "0002"), (2, str "*"), (3, str "N"), (5, [])]
    { num := str "0002", active := true, name := str "N", path := [], parameters := [] }
    (by decide) (by decide)

/-- The result of `remove 0` on `c7_store`. -/
def c7_removed : EFIStore :=
  { esp := str "--disk /dev/sda --part 1"
    rows := [], boot_order := [], boot_order_initial := []
    boot_next := some (str "0001"), boot_next_initial := some (str "0001")
    boot_active := [str "0001"], boot_inactive := [], boot_add := []
    boot_remove := [str "0001"]
    boot_current := none, timeout := none, timeout_initial := none
    order_aliased := true }

/-- A store holding one staged (placeholder) addition. -/
def c7n_store : EFIStore :=
  { initStore (str "--disk /dev/sda --part 1") with
    rows := [⟨false, str "NEW0", str "L", [], [], true, false⟩]
    boot_add := [(str "NEW0", str "L", [], [])] }

/-- Witness for C7: both branches of the amended theorem applied to
concrete stores. -/
theorem C7_remove_semantics_witness :
    (c7_removed.boot_remove = c7_store.boot_remove ++ [str "0001"] ∧
     c7_removed.boot_order = c7_store.boot_order.erase (str "0001")) ∧
    c7n_store.remove 0 = some { c7n_store with
      boot_add := c7n_store.boot_add.filter (fun e => e.1 ≠ str "NEW0")
      rows := c7n_store.rows.eraseIdx 0 } :=
  ⟨(C7_remove_semantics.1 c7_store 0 ⟨false, str "0001", str "A", [], [], true, true⟩
      c7_removed (by decide) (by decide) (by decide)).2.2.2.2 (by decide),
   C7_remove_semantics.2 c7n_store 0 ⟨false, str "NEW0", str "L", [], [], true, false⟩
      (by decide) (by decide)⟩

set_option maxRecDepth 100000 in
/-- C9 counterexample: the line `Boot0001* A.B.<TAB>)` parses to an
entry whose stored name is the raw text `"A.B."`, although the decoder
applied to that raw text yields `"AB"` — the name field is not the
decoded display string the claim describes. -/
theorem C9_counterexample :
    parse_efibootmgr_line (str "Boot0001* A.B.\t)") =
      .ok (.entry { num := str "0001", active := true, name := str "A.B.",
                    path := [], parameters := [] }) ∧
    try_decode_efibootmgr (str "A.B.") = str "AB" ∧
    str "A.B." ≠ str "AB" :=
  ⟨by decide, by decide, by decide⟩

/-! ## C3 — decoder round trip (amended theorem) -/

/-- Rebuilding a character from its code point is the identity. -/
theorem char_ofNat_toNat (c : Char) : Char.ofNat c.toNat = c := by
  have h : Nat.isValidChar c.toNat := c.valid
  rw [Char.ofNat, dif_pos h]
  apply Char.ext
  apply UInt32.eq_of_toBitVec_eq
  simp [Char.ofNatAux, Char.toNat, BitVec.ofNat]
  apply BitVec.eq_of_toNat_eq
  simp [Char.toNat]
  rfl

/-- On ASCII text the documented scheme interleaves each character with
a literal dot. -/
theorem encodeScheme_ascii (x : Str) (h : ∀ c ∈ x, c.toNat < 0x80) :
    encodeScheme x = x.flatMap (fun c => [c, '.']) := by
  induction x with
  | nil => rfl
  | cons c rest ih =>
    have hc : c.toNat < 0x80 := h c (List.mem_cons_self _ _)
    have hrest := ih (fun d hd => h d (List.mem_cons_of_mem _ hd))
    unfold encodeScheme at hrest ⊢
    rw [List.flatMap_cons, List.flatMap_append]
    rw [hrest]
    have h1 : (if c.toNat < 0x10000 then [c.toNat]
        else [0xD800 + (c.toNat - 0x10000) / 0x400, 0xDC00 + (c.toNat - 0x10000) % 0x400])
        = [c.toNat] := if_pos (by omega)
    rw [h1]
    have h2 : c.toNat % 256 = c.toNat := Nat.mod_eq_of_lt (by omega)
    simp only [List.flatMap_cons, List.flatMap_nil, List.append_nil, h2,
      if_pos hc, char_ofNat_toNat, List.cons_append, List.nil_append]

/-- Counting the dots of the interleaved form. -/
theorem count_interleave (x : Str) (h : '.' ∉ x) :
    (x.flatMap (fun c => [c, '.'])).count '.' = x.length := by
  induction x with
  | nil => rfl
  | cons c rest ih =>
    have hc : c ≠ '.' := fun hq => h (hq ▸ List.mem_cons_self _ _)
    have := ih (fun hm => h (List.mem_cons_of_mem _ hm))
    simp [List.count_cons, this, hc]

/-- UTF-8 is the identity byte map on ASCII text. -/
theorem utf8Encode_ascii (s : Str) (h : ∀ c ∈ s, c.toNat < 0x80) :
    utf8Encode s = s.map Char.toNat := by
  induction s with
  | nil => rfl
  | cons c rest ih =>
    have hc : c.toNat < 0x80 := h c (List.mem_cons_self _ _)
    have := ih (fun d hd => h d (List.mem_cons_of_mem _ hd))
    unfold utf8Encode at this ⊢
    simp only [List.flatMap_cons, this, List.map_cons, utf8EncodeChar, if_pos hc,
      List.cons_append, List.nil_append]

/-- The odd-offset dot-to-NUL substitution turns the interleaved dots
into NUL bytes (positions tracked from any even offset). -/
theorem mutate_interleave (x : Str) :
    ∀ k, k % 2 = 0 →
    (List.enumFrom k (x.flatMap (fun c => [c.toNat, 46]))).map
      (fun p => if p.1 % 2 = 1 ∧ p.2 = 46 then 0 else p.2)
      = x.flatMap (fun c => [c.toNat, 0]) := by
  induction x with
  | nil => intro k _; rfl
  | cons c rest ih =>
    intro k hk
    have step : (c :: rest).flatMap (fun c => [c.toNat, 46])
        = c.toNat :: 46 :: rest.flatMap (fun c => [c.toNat, 46]) := by simp
    have step0 : (c :: rest).flatMap (fun c => [c.toNat, 0])
        = c.toNat :: 0 :: rest.flatMap (fun c => [c.toNat, 0]) := by simp
    rw [step, step0]
    have estep : List.enumFrom k (c.toNat :: 46 :: rest.flatMap (fun c => [c.toNat, 46]))
        = (k, c.toNat) :: (k + 1, 46) ::
          List.enumFrom (k + 2) (rest.flatMap (fun c => [c.toNat, 46])) := rfl
    rw [estep, List.map_cons, List.map_cons, ih (k + 2) (by omega)]
    have h1 : ¬(k % 2 = 1 ∧ c.toNat = 46) := fun hq => by omega
    have h2 : (k + 1) % 2 = 1 ∧ (46 : Nat) = 46 := ⟨by omega, rfl⟩
    rw [if_neg h1, if_pos h2]

/-- Little-endian pairing of `⟨byte, 0⟩` pairs recovers the code units. -/
theorem pairsLE_interleave (x : Str) :
    utf16PairsLE (x.flatMap (fun c => [c.toNat, 0])) = some (x.map Char.toNat) := by
  induction x with
  | nil => rfl
  | cons c rest ih =>
    have step : (c :: rest).flatMap (fun c => [c.toNat, 0])
        = c.toNat :: 0 :: rest.flatMap (fun c => [c.toNat, 0]) := by simp
    rw [step]
    rw [show utf16PairsLE (c.toNat :: 0 :: rest.flatMap (fun c => [c.toNat, 0]))
        = (utf16PairsLE (rest.flatMap (fun c => [c.toNat, 0]))).map
            (fun us => (c.toNat + 256 * 0) :: us) from rfl, ih]
    simp

/-- One step of `utf16Combine` on a non-surrogate unit. -/
theorem utf16Combine_lt (u : Nat) (l : List Nat) (hu : u < 0xD800) :
    utf16Combine (u :: l) = (utf16Combine l).map (fun cs => Char.ofNat u :: cs) := by
  have h1 : ¬(0xD800 ≤ u ∧ u ≤ 0xDBFF) := fun hq => by omega
  have h2 : ¬(0xDC00 ≤ u ∧ u ≤ 0xDFFF) := fun hq => by omega
  cases l with
  | nil =>
    show (if 0xD800 ≤ u ∧ u ≤ 0xDBFF then none
      else if 0xDC00 ≤ u ∧ u ≤ 0xDFFF then none
      else (utf16Combine []).map (fun cs => Char.ofNat u :: cs)) = _
    rw [if_neg h1, if_neg h2]
  | cons u2 rest2 =>
    show (if 0xD800 ≤ u ∧ u ≤ 0xDBFF then
        (if 0xDC00 ≤ u2 ∧ u2 ≤ 0xDFFF then
          (utf16Combine rest2).map
            (fun cs => Char.ofNat (0x10000 + (u - 0xD800) * 0x400 + (u2 - 0xDC00)) :: cs)
         else none)
      else if 0xDC00 ≤ u ∧ u ≤ 0xDFFF then none
      else (utf16Combine (u2 :: rest2)).map (fun cs => Char.ofNat u :: cs)) = _
    rw [if_neg h1, if_neg h2]

/-- Combining ASCII code units rebuilds the characters. -/
theorem combine_ascii (x : Str) (h : ∀ c ∈ x, c.toNat < 0x80) :
    utf16Combine (x.map Char.toNat) = some x := by
  induction x with
  | nil => rfl
  | cons c rest ih =>
    have hc : c.toNat < 0x80 := h c (List.mem_cons_self _ _)
    have hih := ih (fun d hd => h d (List.mem_cons_of_mem _ hd))
    rw [List.map_cons, utf16Combine_lt _ _ (by omega), hih]
    simp [char_ofNat_toNat]

/-- C3 (amended): for every ASCII string `x` with no `'.'` and of
length other than 1, the decoder inverts the documented encoding
scheme: `try_decode_efibootmgr (encodeScheme x) = x`.  (Length-1
strings fall into the lone-trailing-dot special case, see the
counterexample.) -/
theorem C3_decode_encode (x : Str) (hascii : ∀ c ∈ x, c.toNat < 0x80)
    (hdot : '.' ∉ x) (hlen : x.length ≠ 1) :
    try_decode_efibootmgr (encodeScheme x) = x := by
  rw [encodeScheme_ascii x hascii]
  match x, hascii, hdot, hlen with
  | [], _, _, _ => rfl
  | [a], _, _, hlen => exact absurd rfl hlen
  | a :: b :: rest, hascii, hdot, _ =>
    have ha : a.toNat < 0x80 := hascii a (List.mem_cons_self _ _)
    set y := (a :: b :: rest).flatMap (fun c => [c, '.']) with hy
    have hymem : '.' ∈ y := by rw [hy]; simp
    have hcount : y.count '.' = (a :: b :: rest).length := count_interleave _ hdot
    have hyascii : ∀ c ∈ y, c.toNat < 0x80 := by
      intro c hc
      rw [hy] at hc
      rcases List.mem_flatMap.mp hc with ⟨d, hd, hcd⟩
      simp only [List.mem_cons, List.mem_singleton, List.not_mem_nil, or_false] at hcd
      rcases hcd with h | h
      · exact h ▸ hascii d hd
      · rw [h]; decide
    unfold try_decode_efibootmgr try_decode_fueled
    rw [if_neg (by simpa using hymem)]
    rw [if_neg (by
      rintro ⟨-, h2⟩
      rw [hcount] at h2
      simp at h2)]
    rw [if_neg (by
      rw [hy]
      simp only [List.flatMap_cons, List.cons_append, List.nil_append]
      simp [str, List.isPrefixOf])]
    have hbytes : (utf8Encode y).enum.map
        (fun p => if p.1 % 2 = 1 ∧ p.2 = 46 then 0 else p.2)
        = (a :: b :: rest).flatMap (fun c => [c.toNat, 0]) := by
      rw [utf8Encode_ascii y hyascii, hy]
      have hmap : ((a :: b :: rest).flatMap (fun c => [c, '.'])).map Char.toNat
          = (a :: b :: rest).flatMap (fun c => [c.toNat, 46]) := by
        rw [List.map_flatMap]; rfl
      rw [hmap, List.enum]
      exact mutate_interleave _ 0 rfl
    rw [hbytes]
    have hdec : utf16Decode ((a :: b :: rest).flatMap (fun c => [c.toNat, 0]))
        = some (a :: b :: rest) := by
      have htake : ((a :: b :: rest).flatMap (fun c => [c.toNat, 0])).take 2
          = [a.toNat, 0] := by simp
      unfold utf16Decode
      rw [if_neg (by rw [htake]; intro h; injection h with h1 _; omega),
          if_neg (by rw [htake]; intro h; injection h with h1 _; omega),
          pairsLE_interleave]
      exact combine_ascii _ hascii
    simp only [hdec]

/-- Witness for C3: the amended round trip at `"My OS"`. -/
theorem C3_decode_encode_witness :
    try_decode_efibootmgr (encodeScheme (str "My OS")) = str "My OS" :=
  C3_decode_encode (str "My OS") (by decide) (by decide) (by decide)

/-! ## C2 — reconciliation (amended theorem) -/

/-- `index_num_aux` with a shifted starting index. -/
theorem idx_shift (num : Str) (rows : List Row) :
    ∀ k, EFIStore.index_num_aux num rows k
      = (EFIStore.index_num_aux num rows 0).map (· + k) := by
  induction rows with
  | nil => intro k; rfl
  | cons s t ih =>
    intro k
    unfold EFIStore.index_num_aux
    by_cases h : s.num = num
    · simp [h]
    · rw [if_neg h, if_neg h, ih (k + 1), ih 1]
      cases EFIStore.index_num_aux num t 0 <;> simp
      omega

/-- A found index points at a row carrying the searched number. -/
theorem idx_spec (num : Str) (rows : List Row) :
    ∀ i, EFIStore.index_num_aux num rows 0 = some i →
      ∃ r, rows[i]? = some r ∧ r.num = num := by
  induction rows with
  | nil => intro i h; cases h
  | cons s t ih =>
    intro i h
    unfold EFIStore.index_num_aux at h
    by_cases hs : s.num = num
    · rw [if_pos hs] at h
      injection h with h
      subst h
      exact ⟨s, List.getElem?_cons_zero, hs⟩
    · rw [if_neg hs, idx_shift num t 1] at h
      cases hj : EFIStore.index_num_aux num t 0 with
      | none => rw [hj] at h; cases h
      | some j =>
        rw [hj] at h
        injection h with h
        subst h
        obtain ⟨r, hr, hrn⟩ := ih j hj
        exact ⟨r, by simpa using hr, hrn⟩

/-- With unique row numbers, the index of a row's own number is the
row's position. -/
theorem idx_complete (rows : List Row) (hn : (rows.map (·.num)).Nodup) :
    ∀ j r, rows[j]? = some r → EFIStore.index_num_aux r.num rows 0 = some j := by
  induction rows with
  | nil => intro j r h; simp at h
  | cons s t ih =>
    intro j r h
    rw [List.map_cons, List.nodup_cons] at hn
    cases j with
    | zero =>
      rw [List.getElem?_cons_zero] at h
      injection h with h
      subst h
      unfold EFIStore.index_num_aux
      rw [if_pos rfl]
    | succ j =>
      rw [List.getElem?_cons_succ] at h
      have hmem : r ∈ t := by
        rcases List.getElem?_eq_some_iff.mp h with ⟨hj, hget⟩
        exact hget ▸ List.getElem_mem hj
      have hs : s.num ≠ r.num := by
        intro hq
        exact hn.1 (hq ▸ List.mem_map_of_mem (·.num) hmem)
      unfold EFIStore.index_num_aux
      rw [if_neg hs, idx_shift _ t 1, ih hn.2 j r h]
      rfl

/-- The first `reorder` loop is a `filterMap` of the index lookup. -/
theorem reorder_fold1 (rows : List Row) (ids : List Str) :
    ∀ acc, ids.foldl (fun acc bootnum =>
        match EFIStore.index_num_aux bootnum rows 0 with
        | none => acc
        | some index => acc ++ [index]) acc
      = acc ++ ids.filterMap (fun id => EFIStore.index_num_aux id rows 0) := by
  induction ids with
  | nil => intro acc; simp
  | cons id t ih =>
    intro acc
    rw [List.foldl_cons, List.filterMap_cons]
    cases h : EFIStore.index_num_aux id rows 0 with
    | none => simp only [h]; rw [ih acc]
    | some i => simp only [h]; rw [ih (acc ++ [i])]; simp

/-- The second `reorder` loop appends the not-yet-present indices, in
order. -/
theorem reorder_fold2 (l : List Nat) (hl : l.Nodup) :
    ∀ acc, l.foldl (fun acc i => if i ∈ acc then acc else acc ++ [i]) acc
      = acc ++ l.filter (fun i => decide (i ∉ acc)) := by
  induction l with
  | nil => intro acc; simp
  | cons i t ih =>
    intro acc
    rw [List.nodup_cons] at hl
    rw [List.foldl_cons, List.filter_cons]
    by_cases hi : i ∈ acc
    · rw [if_pos hi]
      simp only [hi, not_true_eq_false, decide_False, if_false]
      exact ih hl.2 acc
    · rw [if_neg hi]
      simp only [hi, not_false_eq_true, decide_True, if_true]
      rw [ih hl.2 (acc ++ [i])]
      have : t.filter (fun x => decide (x ∉ acc ++ [i]))
          = t.filter (fun x => decide (x ∉ acc)) := by
        apply List.filter_congr
        intro x hx
        have hxi : x ≠ i := fun hq => hl.1 (hq ▸ hx)
        simp [List.mem_append, hxi]
      rw [this]
      simp

/-- Looking the found index back up is `find?`. -/
theorem idx_bind_find (num : Str) (rows : List Row) :
    (EFIStore.index_num_aux num rows 0).bind (fun i => rows[i]?)
      = rows.find? (fun r => r.num == num) := by
  induction rows with
  | nil => rfl
  | cons s t ih =>
    unfold EFIStore.index_num_aux
    by_cases hs : s.num = num
    · rw [if_pos hs]
      have hb : ((fun r => r.num == num) s) = true := by simp [hs]
      rw [@List.find?_cons_of_pos _ (fun r => r.num == num) s t hb]
      simp
    · rw [if_neg hs, idx_shift num t 1]
      have hb : ¬((fun r => r.num == num) s) = true := by simp [hs]
      rw [@List.find?_cons_of_neg _ (fun r => r.num == num) s t hb]
      rw [← ih]
      cases EFIStore.index_num_aux num t 0 <;> simp

/-- With unique row numbers, `find?` on a member's own number returns
that member. -/
theorem find_self (rows : List Row) (hn : (rows.map (·.num)).Nodup) :
    ∀ r ∈ rows, rows.find? (fun s => s.num == r.num) = some r := by
  induction rows with
  | nil => intro r h; cases h
  | cons s t ih =>
    intro r hr
    rw [List.map_cons, List.nodup_cons] at hn
    rcases List.mem_cons.mp hr with h | h
    · subst h
      exact @List.find?_cons_of_pos _ (fun s => s.num == r.num) r t (by simp)
    · have hs : s.num ≠ r.num := by
        intro hq
        exact hn.1 (hq ▸ List.mem_map_of_mem (·.num) h)
      rw [@List.find?_cons_of_neg _ (fun s => s.num == r.num) s t (by simp [hs])]
      exact ih hn.2 r h

/-- Filtering the index range by an index property and reading the
elements back equals filtering the list by the corresponding element
property. -/
theorem range_filter_filterMap {α : Type} (l : List α) (p : Nat → Bool) (q : α → Bool)
    (h : ∀ (i : Nat) (r : α), l[i]? = some r → p i = q r) :
    ((List.range l.length).filter p).filterMap (fun i => l[i]?) = l.filter q := by
  induction l generalizing p q with
  | nil => rfl
  | cons x t ih =>
    rw [List.length_cons, List.range_succ_eq_map]
    have hcore : ((List.map Nat.succ (List.range t.length)).filter p).filterMap
        (fun i => (x :: t)[i]?) = t.filter q := by
      rw [List.filter_map, List.filterMap_map]
      have hcongr : ((List.range t.length).filter (p ∘ Nat.succ)).filterMap
          ((fun i => (x :: t)[i]?) ∘ Nat.succ)
          = ((List.range t.length).filter (p ∘ Nat.succ)).filterMap (fun i => t[i]?) := by
        apply List.filterMap_congr
        intro i _
        simp [Function.comp]
      rw [hcongr]
      exact ih (p ∘ Nat.succ) q (fun i r hr => h (i + 1) r (by simpa using hr))
    have h0 : p 0 = q x := h 0 x List.getElem?_cons_zero
    by_cases hq : q x
    · simp only [List.filter_cons, h0, hq, if_true, List.filterMap_cons,
        List.getElem?_cons_zero, hcore]
    · simp only [List.filter_cons, h0, hq, Bool.false_eq_true, if_false, hcore]

/-- The characterisation of `reorder` on a store whose boot order has
no duplicates and whose row numbers are unique: the assert passes, and
the rows become the boot-order-matched rows (in boot-order order)
followed by the unmatched rows (in listing order). -/
theorem reorder_spec (st : EFIStore) (hord : st.boot_order.Nodup)
    (hrn : (st.rows.map (·.num)).Nodup) :
    st.reorder = some { st with rows :=
      (st.boot_order.filterMap (fun id => st.rows.find? (fun r => r.num == id))
        ++ st.rows.filter (fun r => decide (r.num ∉ st.boot_order))) } := by
  have hnr : st.rows.Nodup := hrn.of_map (·.num)
  simp only [EFIStore.reorder]
  rw [reorder_fold1 st.rows st.boot_order [], List.nil_append,
      reorder_fold2 (List.range st.rows.length) (List.nodup_range _)]
  set part1 := st.boot_order.filterMap (fun id => EFIStore.index_num_aux id st.rows 0)
    with hpart1
  have hpn : part1.Nodup := by
    rw [hpart1]
    apply List.Nodup.filterMap _ hord
    intro a a' b hba hba'
    rw [Option.mem_def] at hba hba'
    obtain ⟨r, hr, hrn1⟩ := idx_spec a st.rows b hba
    obtain ⟨r', hr', hrn2⟩ := idx_spec a' st.rows b hba'
    rw [hr] at hr'
    injection hr' with hr'
    rw [← hrn1, ← hrn2, hr']
  have hplt : ∀ i ∈ part1, i < st.rows.length := by
    intro i hi
    rw [hpart1] at hi
    rcases List.mem_filterMap.mp hi with ⟨id, _, hfi⟩
    obtain ⟨r, hr, -⟩ := idx_spec id st.rows i hfi
    exact (List.getElem?_eq_some_iff.mp hr).1
  have hmem_iff : ∀ (i : Nat) (r : Row), st.rows[i]? = some r →
      (i ∈ part1 ↔ r.num ∈ st.boot_order) := by
    intro i r hir
    constructor
    · intro hi
      rw [hpart1] at hi
      rcases List.mem_filterMap.mp hi with ⟨id, hid, hfi⟩
      obtain ⟨r', hr', hrn'⟩ := idx_spec id st.rows i hfi
      rw [hir] at hr'
      injection hr' with hr'
      rw [hr', hrn']
      exact hid
    · intro hnum
      rw [hpart1]
      exact List.mem_filterMap.mpr ⟨r.num, hnum, idx_complete st.rows hrn i r hir⟩
  have hnodup : (part1 ++ (List.range st.rows.length).filter
      (fun i => decide (i ∉ part1))).Nodup := by
    rw [List.nodup_append]
    refine ⟨hpn, (List.nodup_range _).filter _, ?_⟩
    intro a ha haf
    rcases List.mem_filter.mp haf with ⟨-, hdec⟩
    exact (of_decide_eq_true hdec) ha
  have hperm : (part1 ++ (List.range st.rows.length).filter
      (fun i => decide (i ∉ part1))).Perm (List.range st.rows.length) := by
    rw [List.perm_ext_iff_of_nodup hnodup (List.nodup_range _)]
    intro a
    constructor
    · intro ha
      rcases List.mem_append.mp ha with h | h
      · exact List.mem_range.mpr (hplt a h)
      · exact (List.mem_filter.mp h).1
    · intro ha
      by_cases hp : a ∈ part1
      · exact List.mem_append.mpr (Or.inl hp)
      · exact List.mem_append.mpr (Or.inr (List.mem_filter.mpr ⟨ha, decide_eq_true hp⟩))
  have hlen : (part1 ++ (List.range st.rows.length).filter
      (fun i => decide (i ∉ part1))).length = st.rows.length := by
    rw [hperm.length_eq, List.length_range]
  rw [if_pos hlen, List.filterMap_append]
  have hA : part1.filterMap (fun i => st.rows[i]?)
      = st.boot_order.filterMap (fun id => st.rows.find? (fun r => r.num == id)) := by
    rw [hpart1, List.filterMap_filterMap]
    apply List.filterMap_congr
    intro id _
    exact idx_bind_find id st.rows
  have hB : ((List.range st.rows.length).filter
      (fun i => decide (i ∉ part1))).filterMap (fun i => st.rows[i]?)
      = st.rows.filter (fun r => decide (r.num ∉ st.boot_order)) := by
    apply range_filter_filterMap
    intro i r hir
    have hmi := hmem_iff i r hir
    by_cases hin : r.num ∈ st.boot_order
    · have h1 : decide (i ∉ part1) = false := decide_eq_false (not_not_intro (hmi.mpr hin))
      have h2 : decide (r.num ∉ st.boot_order) = false := decide_eq_false (not_not_intro hin)
      rw [h1, h2]
    · have h1 : decide (i ∉ part1) = true := decide_eq_true (fun hq => hin (hmi.mp hq))
      have h2 : decide (r.num ∉ st.boot_order) = true := decide_eq_true hin
      rw [h1, h2]
  rw [hA, hB]

/-- C2 (amended): refreshing from a snapshot whose entry ids are unique
and whose boot order has no duplicate ids succeeds, and the reconciled
display rows are exactly the boot-order-matched entries (in boot-order
order, stale ids dropped) followed by the orphaned entries (in
entries-listing order); the result is a permutation of the snapshot's
entries and in particular has exactly as many rows as the snapshot has
entries. -/
theorem C2_reconciliation (parsed : ParsedEfi) (esp : Str)
    (hord : parsed.boot_order.Nodup)
    (hent : (parsed.entries.map (·.num)).Nodup) :
    (initStore esp).refresh parsed = some
      { esp := esp
        rows := (parsed.boot_order.filterMap (fun id =>
            (parsed.entries.map (EFIStore.mkRow parsed)).find? (fun r => r.num == id))
          ++ (parsed.entries.map (EFIStore.mkRow parsed)).filter
              (fun r => decide (r.num ∉ parsed.boot_order)))
        boot_order := parsed.boot_order
        boot_order_initial := parsed.boot_order
        boot_next := parsed.boot_next
        boot_next_initial := parsed.boot_next
        boot_active := [], boot_inactive := [], boot_add := [], boot_remove := []
        boot_current := parsed.boot_current
        timeout := parsed.timeout
        timeout_initial := parsed.timeout
        order_aliased := true } ∧
    ((parsed.boot_order.filterMap (fun id =>
        (parsed.entries.map (EFIStore.mkRow parsed)).find? (fun r => r.num == id)))
      ++ (parsed.entries.map (EFIStore.mkRow parsed)).filter
          (fun r => decide (r.num ∉ parsed.boot_order))).length
      = parsed.entries.length ∧
    ((parsed.boot_order.filterMap (fun id =>
        (parsed.entries.map (EFIStore.mkRow parsed)).find? (fun r => r.num == id)))
      ++ (parsed.entries.map (EFIStore.mkRow parsed)).filter
          (fun r => decide (r.num ∉ parsed.boot_order))).Perm
      (parsed.entries.map (EFIStore.mkRow parsed)) := by
  set rows₀ := parsed.entries.map (EFIStore.mkRow parsed) with hrows₀
  have hmapnum : rows₀.map (·.num) = parsed.entries.map (·.num) := by
    rw [hrows₀, List.map_map]
    rfl
  have hrn : (rows₀.map (·.num)).Nodup := by rw [hmapnum]; exact hent
  have hnr : rows₀.Nodup := hrn.of_map (·.num)
  set A := parsed.boot_order.filterMap (fun id => rows₀.find? (fun r => r.num == id))
    with hA
  set B := rows₀.filter (fun r => decide (r.num ∉ parsed.boot_order)) with hB
  have hAmem : ∀ r, r ∈ A ↔ r ∈ rows₀ ∧ r.num ∈ parsed.boot_order := by
    intro r
    constructor
    · intro hr
      rw [hA] at hr
      rcases List.mem_filterMap.mp hr with ⟨id, hid, hfind⟩
      refine ⟨List.mem_of_find?_eq_some hfind, ?_⟩
      have hpred0 := List.find?_some hfind
      have hpred : (r.num == id) = true := hpred0
      rw [eq_of_beq hpred]
      exact hid
    · rintro ⟨hmem, hid⟩
      rw [hA]
      exact List.mem_filterMap.mpr ⟨r.num, hid, find_self rows₀ hrn r hmem⟩
  have hAnd : A.Nodup := by
    rw [hA]
    apply List.Nodup.filterMap _ hord
    intro a a' b hba hba'
    rw [Option.mem_def] at hba hba'
    have h10 := List.find?_some hba
    have h20 := List.find?_some hba'
    have h1 : (b.num == a) = true := h10
    have h2 : (b.num == a') = true := h20
    rw [← eq_of_beq h1, ← eq_of_beq h2]
  have hAperm : A.Perm (rows₀.filter (fun r => decide (r.num ∈ parsed.boot_order))) := by
    rw [List.perm_ext_iff_of_nodup hAnd (hnr.filter _)]
    intro r
    rw [hAmem, List.mem_filter]
    simp
  have hfp : (rows₀.filter (fun r => decide (r.num ∈ parsed.boot_order)) ++ B).Perm rows₀ := by
    have hBeq : B = rows₀.filter (fun r => !(decide (r.num ∈ parsed.boot_order))) := by
      rw [hB]
      apply List.filter_congr
      intro r _
      rw [decide_not]
    rw [hBeq]
    exact List.filter_append_perm _ rows₀
  have hperm : (A ++ B).Perm rows₀ := (hAperm.append_right B).trans hfp
  have hlen : (A ++ B).length = parsed.entries.length := by
    rw [hperm.length_eq, hrows₀, List.length_map]
  refine ⟨?_, hlen, hperm⟩
  have hre : (initStore esp).refresh parsed = EFIStore.reorder
      { esp := esp, rows := rows₀, boot_order := parsed.boot_order
        boot_order_initial := parsed.boot_order, boot_next := parsed.boot_next
        boot_next_initial := parsed.boot_next, boot_active := [], boot_inactive := []
        boot_add := [], boot_remove := [], boot_current := parsed.boot_current
        timeout := parsed.timeout, timeout_initial := parsed.timeout
        order_aliased := true } := rfl
  rw [hre, reorder_spec _ hord hrn]

/-- The spec's own reconciliation example: `BootOrder: 0001,0002,0003`
with only entries 0001 and 0003 present. -/
def c2_good_parsed : ParsedEfi :=
  { entries := [{ num := str "0001", active := true, name := str "A", path := [], parameters := [] },
                { num := str "0003", active := true, name := str "C", path := [], parameters := [] }]
    boot_order := [str "0001", str "0002", str "0003"]
    boot_next := none, boot_current := none, timeout := none }

/-- Witness for C2: the amended theorem applied to the spec's example —
the stale id 0002 is dropped and the reconciled order is 0001, 0003. -/
theorem C2_reconciliation_witness :
    ((initStore (str "--disk /dev/sda --part 1")).refresh c2_good_parsed).map
        (fun st => st.rows.map (·.num)) = some [str "0001", str "0003"] := by
  rw [(C2_reconciliation c2_good_parsed (str "--disk /dev/sda --part 1")
        (by decide) (by decide)).1]
  decide

/-! ## C6 — entry grammar (amended theorem)

The amended universal statement needs no reasoning about backtracking
priority: on a line whose name and suffix contain no further tab, every
complete match is forced to the same captures for groups 1–3, so in
particular the head match is.  Existence of a match is shown by one
explicit membership chain through the second alternative. -/

/-- Membership in a `seq` match list. -/
theorem mem_mall_seq {a b : RE} {s : Str} {res : MRes} :
    res ∈ mall (.seq a b) s ↔
      ∃ r1 ∈ mall a s, ∃ r2 ∈ mall b r1.1, res = (r2.1, r1.2 ++ r2.2) := by
  show res ∈ (mall a s).flatMap _ ↔ _
  rw [List.mem_flatMap]
  constructor
  · rintro ⟨r1, h1, hres⟩
    rcases List.mem_map.mp hres with ⟨r2, h2, hres⟩
    exact ⟨r1, h1, r2, h2, hres.symm⟩
  · rintro ⟨r1, h1, r2, h2, hres⟩
    exact ⟨r1, h1, List.mem_map.mpr ⟨r2, h2, hres.symm⟩⟩

/-- Membership in an `alt` match list. -/
theorem mem_mall_alt {a b : RE} {s : Str} {res : MRes} :
    res ∈ mall (.alt a b) s ↔ res ∈ mall a s ∨ res ∈ mall b s :=
  List.mem_append

/-- Membership in a `group` match list. -/
theorem mem_mall_group {n : Nat} {a : RE} {s : Str} {res : MRes} :
    res ∈ mall (.group n a) s ↔
      ∃ r ∈ mall a s, res = (r.1, r.2 ++ [(n, s.take (s.length - r.1.length))]) := by
  show res ∈ (mall a s).map _ ↔ _
  rw [List.mem_map]
  constructor
  · rintro ⟨r, hr, hres⟩; exact ⟨r, hr, hres.symm⟩
  · rintro ⟨r, hr, hres⟩; exact ⟨r, hr, hres.symm⟩

/-- Membership in a `lit` match list. -/
theorem mem_mall_lit {c : Char} {s : Str} {res : MRes} :
    res ∈ mall (.lit c) s ↔ s = c :: res.1 ∧ res.2 = [] := by
  cases s with
  | nil => simp [mall]
  | cons c' t =>
    show res ∈ (if c' = c then [(t, ([] : Groups))] else []) ↔ _
    by_cases h : c' = c
    · rw [if_pos h]
      simp only [List.mem_singleton]
      constructor
      · rintro rfl
        exact ⟨by rw [h], rfl⟩
      · rintro ⟨h1, h2⟩
        injection h1 with h1a h1b
        cases res with
        | mk r1 r2 => simp_all
    · rw [if_neg h]
      simp only [List.not_mem_nil, false_iff]
      rintro ⟨h1, -⟩
      injection h1 with h1a
      exact h h1a

/-- Membership in a `cls` match list. -/
theorem mem_mall_cls {p : Char → Bool} {s : Str} {res : MRes} :
    res ∈ mall (.cls p) s ↔ ∃ c, s = c :: res.1 ∧ p c = true ∧ res.2 = [] := by
  cases s with
  | nil => simp [mall]
  | cons c' t =>
    show res ∈ (if p c' then [(t, ([] : Groups))] else []) ↔ _
    by_cases h : p c' = true
    · rw [if_pos h]
      simp only [List.mem_singleton]
      constructor
      · rintro rfl
        exact ⟨c', rfl, h, rfl⟩
      · rintro ⟨c, h1, hp, h2⟩
        injection h1 with h1a h1b
        cases res with
        | mk r1 r2 => simp_all
    · rw [if_neg h]
      simp only [List.not_mem_nil, false_iff]
      rintro ⟨c, h1, hp, -⟩
      injection h1 with h1a h1b
      subst h1a
      exact h hp

/-- Membership in an `eos` match list. -/
theorem mem_mall_eos {s : Str} {res : MRes} :
    res ∈ mall .eos s ↔ res = (s, []) ∧ (s = [] ∨ s = ['\n']) := by
  by_cases h : s = [] ∨ s = ['\n']
  · simp [mall, if_pos h, h]
  · simp [mall, if_neg h, h]

/-- Every match of a starred class consumes an all-`p` prefix and
captures nothing. -/
theorem mem_mallStar_cls {p : Char → Bool} :
    ∀ (fuel : Nat) (s : Str) (res : MRes), res ∈ mallStar (mall (.cls p)) fuel s →
      res.2 = [] ∧ ∃ k, res.1 = s.drop k ∧ ∀ c ∈ s.take k, p c = true := by
  intro fuel
  induction fuel with
  | zero =>
    intro s res h
    rcases List.mem_singleton.mp h with rfl
    exact ⟨rfl, 0, rfl, by simp⟩
  | succ fuel ih =>
    intro s res h
    rcases List.mem_append.mp h with h | h
    · rcases List.mem_flatMap.mp h with ⟨r, hr, hres⟩
      rcases mem_mall_cls.mp hr with ⟨c, hs, hp, hg⟩
      by_cases hlt : r.1.length < s.length
      · rw [if_pos hlt] at hres
        rcases List.mem_map.mp hres with ⟨r', hr', hres⟩
        obtain ⟨hg', k, hdrop, htake⟩ := ih r.1 r' hr'
        subst hres
        refine ⟨by simp [hg, hg'], k + 1, ?_, ?_⟩
        · rw [hs, List.drop_succ_cons, hdrop]
        · intro d hd
          rw [hs, List.take_succ_cons] at hd
          rcases List.mem_cons.mp hd with rfl | hd
          · exact hp
          · exact htake d hd
      · rw [if_neg hlt] at hres
        cases hres
    · rcases List.mem_singleton.mp h with rfl
      exact ⟨rfl, 0, rfl, by simp⟩

/-- Every match of `cls p +` consumes a non-empty all-`p` prefix and
captures nothing. -/
theorem mem_mall_plus_cls {p : Char → Bool} {s : Str} {res : MRes}
    (h : res ∈ mall (RE.plus (.cls p)) s) :
    res.2 = [] ∧ ∃ k, 1 ≤ k ∧ res.1 = s.drop k ∧ ∀ c ∈ s.take k, p c = true := by
  rcases mem_mall_seq.mp h with ⟨r1, h1, r2, h2, hres⟩
  rcases mem_mall_cls.mp h1 with ⟨c, hs, hp, hg1⟩
  obtain ⟨hg2, k, hdrop, htake⟩ := mem_mallStar_cls r1.1.length r1.1 r2 h2
  subst hres
  refine ⟨by simp [hg1, hg2], k + 1, by omega, ?_, ?_⟩
  · rw [hs, List.drop_succ_cons, hdrop]
  · intro d hd
    rw [hs, List.take_succ_cons] at hd
    rcases List.mem_cons.mp hd with rfl | hd
    · exact hp
    · exact htake d hd

/-- A literal word must be a prefix of the input. -/
theorem mem_mall_lits {w : Str} :
    ∀ {s : Str} {res : MRes}, res ∈ mall (reLits w) s →
      res.2 = [] ∧ s = w ++ res.1 := by
  induction w with
  | nil =>
    intro s res h
    rcases List.mem_singleton.mp h with rfl
    exact ⟨rfl, rfl⟩
  | cons c w ih =>
    intro s res h
    rcases mem_mall_seq.mp h with ⟨r1, h1, r2, h2, hres⟩
    rcases mem_mall_lit.mp h1 with ⟨hs, hg1⟩
    obtain ⟨hg2, hs2⟩ := ih h2
    subst hres
    refine ⟨by simp [hg1, hg2], ?_⟩
    rw [hs, hs2]
    rfl

/-- Consuming a literal word succeeds on exactly that prefix. -/
theorem mall_lits_append (w t : Str) : mall (reLits w) (w ++ t) = [(t, [])] := by
  induction w with
  | nil => rfl
  | cons c w ih =>
    show ((mall (.lit c) (c :: (w ++ t))).flatMap _) = _
    have hlit : mall (.lit c) (c :: (w ++ t)) = [(w ++ t, [])] := by
      show (if c = c then [(w ++ t, ([] : Groups))] else []) = _
      rw [if_pos rfl]
    rw [hlit]
    simp only [List.flatMap_cons, List.flatMap_nil, List.append_nil]
    rw [show List.foldr (fun c e => (RE.lit c).seq e) RE.epsilon w = reLits w from rfl, ih]
    rfl

/-- The all-`p` prefix of an append can be consumed by a starred
class. -/
theorem star_cls_mem_append {p : Char → Bool} :
    ∀ (fuel : Nat) (u v : Str), (∀ c ∈ u, p c = true) → u.length ≤ fuel →
      ((v, []) : MRes) ∈ mallStar (mall (.cls p)) fuel (u ++ v) := by
  intro fuel
  induction fuel with
  | zero =>
    intro u v hu hlen
    have : u = [] := List.length_eq_zero.mp (by omega)
    subst this
    exact List.mem_singleton.mpr rfl
  | succ fuel ih =>
    intro u v hu hlen
    cases u with
    | nil =>
      apply List.mem_append.mpr
      right
      exact List.mem_singleton.mpr rfl
    | cons c u' =>
      apply List.mem_append.mpr
      left
      apply List.mem_flatMap.mpr
      refine ⟨(u' ++ v, []), ?_, ?_⟩
      · apply mem_mall_cls.mpr
        exact ⟨c, rfl, hu c (List.mem_cons_self _ _), rfl⟩
      · have hlt : (u' ++ v).length < (c :: u' ++ v).length := by simp
        rw [if_pos hlt]
        apply List.mem_map.mpr
        refine ⟨(v, []), ?_, rfl⟩
        exact ih u' v (fun d hd => hu d (List.mem_cons_of_mem _ hd)) (by simp at hlen ⊢; omega)

/-- A non-empty all-`p` prefix of an append can be consumed by
`cls p +`. -/
theorem plus_cls_mem_append {p : Char → Bool} (u v : Str) (hne : u ≠ [])
    (hu : ∀ c ∈ u, p c = true) :
    ((v, []) : MRes) ∈ mall (RE.plus (.cls p)) (u ++ v) := by
  cases u with
  | nil => exact absurd rfl hne
  | cons c u' =>
    apply mem_mall_seq.mpr
    refine ⟨(u' ++ v, []), ?_, (v, []), ?_, rfl⟩
    · apply mem_mall_cls.mpr
      exact ⟨c, rfl, hu c (List.mem_cons_self _ _), rfl⟩
    · show ((v, []) : MRes) ∈ mallStar (mall (.cls p)) (u' ++ v).length (u' ++ v)
      exact star_cls_mem_append _ u' v (fun d hd => hu d (List.mem_cons_of_mem _ hd))
        (by simp)

/-- An all-`p` prefix cannot reach past a character violating `p`. -/
theorem take_all_le {p : Char → Bool} (u v : Str) (d : Char) (hd : p d = false)
    (k : Nat) (hk : ∀ c ∈ (u ++ d :: v).take k, p c = true) : k ≤ u.length := by
  by_contra hgt
  push_neg at hgt
  have hmem : d ∈ (u ++ d :: v).take k := by
    rw [List.take_append_eq_append_take]
    obtain ⟨m, hm⟩ : ∃ m, k - u.length = m + 1 := ⟨k - u.length - 1, by omega⟩
    rw [hm, List.take_succ_cons]
    exact List.mem_append.mpr (Or.inr (List.mem_cons_self _ _))
  have := hk d hmem
  rw [hd] at this
  cases this

/-- In `name ++ '\t' :: suffix` with tab-free `name` and `suffix`, the
only drop starting with a tab is at the seam. -/
theorem drop_eq_tab (name suffix : Str) (hn : '\t' ∉ name) (hs : '\t' ∉ suffix)
    (k : Nat) (r : Str) (h : (name ++ '\t' :: suffix).drop k = '\t' :: r) :
    k = name.length ∧ r = suffix := by
  have hkelem : (name ++ '\t' :: suffix)[k]? = some '\t' := by
    have h0 : ((name ++ '\t' :: suffix).drop k)[0]? = some '\t' := by rw [h]; simp
    rw [List.getElem?_drop] at h0
    simpa using h0
  have hk : k = name.length := by
    rcases Nat.lt_trichotomy k name.length with hlt | heq | hgt
    · exfalso
      rw [List.getElem?_append, if_pos hlt] at hkelem
      rcases List.getElem?_eq_some_iff.mp hkelem with ⟨hb, hget⟩
      exact hn (hget ▸ List.getElem_mem hb)
    · exact heq
    · exfalso
      rw [List.getElem?_append_right (by omega)] at hkelem
      obtain ⟨m, hm⟩ : ∃ m, k - name.length = m + 1 := ⟨k - name.length - 1, by omega⟩
      rw [hm, List.getElem?_cons_succ] at hkelem
      rcases List.getElem?_eq_some_iff.mp hkelem with ⟨hb, hget⟩
      exact hs (hget ▸ List.getElem_mem hb)
  subst hk
  rw [List.drop_left] at h
  injection h with h1 h2
  exact ⟨rfl, h2.symm⟩

/-- A hex-digit prefix followed by anything cannot start with a
non-hex character. -/
theorem drop_hex_head {hex : Str} (hhex : ∀ c ∈ hex, isHexUpper c = true) {k : Nat}
    (hk : k < hex.length) {v w : Str} {c : Char}
    (h : hex.drop k ++ v = c :: w) (hc : isHexUpper c = false) : False := by
  rw [List.drop_eq_getElem_cons hk, List.cons_append] at h
  injection h with h1 h2
  have hmem := hhex hex[k] (List.getElem_mem hk)
  rw [h1, hc] at hmem
  cases hmem

/-- The groups captured by the suffix alternation: nothing, or exactly
one binding for group 4. -/
theorem alt_suffix_groups {s : Str} {res : MRes}
    (h : res ∈ mall (.alt (.seq (.plus reDot)
          (.seq (reLits (str "/File("))
          (.seq (.group 4 (.plus reDot)) (.lit ')'))))
        (.seq (.star reDot) (.lit ')'))) s) :
    res.2 = [] ∨ ∃ p4, res.2 = [(4, p4)] := by
  rcases mem_mall_alt.mp h with h | h
  · rcases mem_mall_seq.mp h with ⟨r1, h1, r2, h2, hres⟩
    rcases mem_mall_seq.mp h2 with ⟨r3, h3, r4, h4, hres2⟩
    rcases mem_mall_seq.mp h4 with ⟨r5, h5, r6, h6, hres4⟩
    obtain ⟨hg1, -⟩ := mem_mall_plus_cls h1
    obtain ⟨hg3, -⟩ := mem_mall_lits h3
    rcases mem_mall_group.mp h5 with ⟨r7, h7, hr5⟩
    obtain ⟨hg7, -⟩ := mem_mall_plus_cls h7
    rcases mem_mall_lit.mp h6 with ⟨-, hg6⟩
    right
    refine ⟨r3.1.take (r3.1.length - r7.1.length), ?_⟩
    rw [hres, hres2, hres4, hr5]
    simp [hg1, hg3, hg6, hg7]
  · rcases mem_mall_seq.mp h with ⟨r1, h1, r2, h2, hres⟩
    have h1' : r1 ∈ mallStar (mall (.cls (fun c => decide (c ≠ '\n')))) s.length s := h1
    obtain ⟨hg1, -⟩ := mem_mallStar_cls s.length s r1 h1'
    rcases mem_mall_lit.mp h2 with ⟨-, hg2⟩
    left
    rw [hres]
    simp [hg1, hg2]

/-- On a grammar-shaped line with unique tab, every complete match of
the entry regular expression captures the hex digits as group 1, the
asterisk (iff present) as group 2 and the name as group 3. -/
theorem C6_forced_groups (hex ast name suffix : Str)
    (hhex : ∀ c ∈ hex, isHexUpper c = true)
    (hast : ast = [] ∨ ast = ['*'])
    (hnames : '\t' ∉ name) (hsuft : '\t' ∉ suffix)
    (res : MRes)
    (h : res ∈ mall efibootmgr_regex
      (str "Boot" ++ (hex ++ (ast ++ (' ' :: (name ++ '\t' :: suffix)))))) :
    groupGet res.2 1 = some hex ∧ (groupGet res.2 2).isSome = decide (ast ≠ []) ∧
      groupGet res.2 3 = some name := by
  rcases mem_mall_seq.mp h with ⟨rA, hA, res1, h1, hres0⟩
  obtain ⟨hgA, hsA⟩ := mem_mall_lits hA
  have hrA1 : rA.1 = hex ++ (ast ++ (' ' :: (name ++ '\t' :: suffix))) :=
    (List.append_cancel_left hsA).symm
  rcases mem_mall_seq.mp h1 with ⟨rB, hB, res2, h2, hres1⟩
  rcases mem_mall_group.mp hB with ⟨rp, hp, hrB⟩
  obtain ⟨hgp, k, hk1, hdropk, htakek⟩ := mem_mall_plus_cls hp
  have hkle : k ≤ hex.length := by
    rcases hast with hE | hS
    · subst hE
      rw [hrA1, List.nil_append] at htakek
      exact take_all_le hex _ ' ' (by decide) k htakek
    · subst hS
      rw [hrA1] at htakek
      exact take_all_le hex _ '*' (by decide) k htakek
  have hrB1 : rB.1 = hex.drop k ++ (ast ++ (' ' :: (name ++ '\t' :: suffix))) := by
    rw [hrB, hdropk, hrA1, List.drop_append_eq_append_drop,
        Nat.sub_eq_zero_of_le hkle, List.drop_zero]
  rcases mem_mall_seq.mp h2 with ⟨rC, hC, res3, h3, hres2⟩
  rcases mem_mall_seq.mp h3 with ⟨rD, hD, res4, h4, hres3⟩
  rcases mem_mall_lit.mp hD with ⟨hsD, hgD⟩
  have hmain : k = hex.length ∧ rD.1 = name ++ '\t' :: suffix ∧
      ((ast = [] ∧ rC.2 = []) ∨ (ast = ['*'] ∧ ∃ y, rC.2 = [(2, y)])) := by
    rcases mem_mall_alt.mp hC with hC2 | hCe
    · rcases mem_mall_group.mp hC2 with ⟨rl, hl, hrC⟩
      rcases mem_mall_lit.mp hl with ⟨hsl, hgl⟩
      rw [hrB1] at hsl
      rcases hast with hE | hS
      · exfalso
        subst hE
        rw [List.nil_append] at hsl
        rcases Nat.lt_or_ge k hex.length with hlt | hge
        · exact drop_hex_head hhex hlt hsl (by decide)
        · have hke : k = hex.length := by omega
          rw [hke, List.drop_length, List.nil_append] at hsl
          injection hsl with hsl
          cases hsl
      · subst hS
        rcases Nat.lt_or_ge k hex.length with hlt | hge
        · exact absurd (drop_hex_head hhex hlt hsl (by decide)) (fun hq => hq)
        · have hke : k = hex.length := by omega
          rw [hke, List.drop_length, List.nil_append, List.cons_append] at hsl
          injection hsl with hsl1 hsl2
          have hrC1 : rC.1 = ' ' :: (name ++ '\t' :: suffix) := by
            rw [hrC, ← hsl2]
            simp
          rw [hsD] at hrC1
          injection hrC1 with hq1 hq2
          refine ⟨hke, hq2, Or.inr ⟨rfl, ?_⟩⟩
          refine ⟨rB.1.take (rB.1.length - rl.1.length), ?_⟩
          rw [hrC, hgl]
          rfl
    · have hrCe : rC = (rB.1, []) := List.mem_singleton.mp hCe
      have hrC1 : rC.1 = rB.1 := by rw [hrCe]
      rw [hsD, hrB1] at hrC1
      rcases hast with hE | hS
      · subst hE
        rw [List.nil_append] at hrC1
        rcases Nat.lt_or_ge k hex.length with hlt | hge
        · exact absurd (drop_hex_head hhex hlt hrC1.symm (by decide)) (fun hq => hq)
        · have hke : k = hex.length := by omega
          rw [hke, List.drop_length, List.nil_append] at hrC1
          injection hrC1 with hq1 hq2
          exact ⟨hke, hq2, Or.inl ⟨rfl, by rw [hrCe]⟩⟩
      · exfalso
        subst hS
        rcases Nat.lt_or_ge k hex.length with hlt | hge
        · exact drop_hex_head hhex hlt hrC1.symm (by decide)
        · have hke : k = hex.length := by omega
          rw [hke, List.drop_length, List.nil_append, List.cons_append] at hrC1
          injection hrC1 with hq1
          cases hq1
  obtain ⟨hkeq, hrD1, hG2⟩ := hmain
  have hcap1 : rA.1.take (rA.1.length - rp.1.length) = hex := by
    rw [hdropk, List.length_drop]
    have hklen : k ≤ rA.1.length := by
      rw [hrA1]
      simp only [List.length_append]
      omega
    have : rA.1.length - (rA.1.length - k) = k := by omega
    rw [this, hrA1, hkeq]
    exact List.take_left hex _
  rcases mem_mall_seq.mp h4 with ⟨rE, hE, res5, h5, hres4⟩
  rcases mem_mall_group.mp hE with ⟨rp3, hp3, hrE⟩
  obtain ⟨hgp3, k3, hk31, hdropk3, htakek3⟩ :=
    mem_mall_plus_cls (show rp3 ∈ mall (RE.plus (.cls (fun c => decide (c ≠ '\n')))) rD.1
      from hp3)
  rcases mem_mall_seq.mp h5 with ⟨rF, hF, res6, h6, hres5⟩
  rcases mem_mall_lit.mp hF with ⟨hsF, hgF⟩
  have htab : k3 = name.length ∧ rF.1 = suffix := by
    apply drop_eq_tab name suffix hnames hsuft k3
    rw [← hrD1, ← hdropk3, ← hsF, hrE]
  obtain ⟨hk3eq, hrF1⟩ := htab
  have hcap3 : rD.1.take (rD.1.length - rp3.1.length) = name := by
    rw [hdropk3, List.length_drop]
    have hklen : k3 ≤ rD.1.length := by
      rw [hrD1]
      simp only [List.length_append, List.length_cons]
      omega
    have : rD.1.length - (rD.1.length - k3) = k3 := by omega
    rw [this, hrD1, hk3eq]
    exact List.take_left name _
  rcases mem_mall_seq.mp h6 with ⟨rG, hG, res7, h7, hres6⟩
  have hGg := alt_suffix_groups hG
  rcases mem_mall_seq.mp h7 with ⟨rH, hH, rI, hI, hres7⟩
  rcases mem_mall_group.mp hH with ⟨rs5, hs5, hrH⟩
  obtain ⟨hgs5, -⟩ := mem_mallStar_cls rG.1.length rG.1 rs5
    (show rs5 ∈ mallStar (mall (.cls (fun c => decide (c ≠ '\n')))) rG.1.length rG.1
      from hs5)
  obtain ⟨hrIeq, -⟩ := mem_mall_eos.mp hI
  have hres2g : res.2 = rA.2 ++ (rB.2 ++ (rC.2 ++ (rD.2 ++ (rE.2 ++ (rF.2 ++
      (rG.2 ++ (rH.2 ++ rI.2))))))) := by
    rw [hres0, hres1, hres2, hres3, hres4, hres5, hres6, hres7]
  have hrB2 : rB.2 = [(1, hex)] := by rw [hrB, hgp, hcap1]; rfl
  have hrE2 : rE.2 = [(3, name)] := by rw [hrE, hgp3, hcap3]; rfl
  have hrI2 : rI.2 = [] := by rw [hrIeq]
  have hrH2 : ∃ z, rH.2 = [(5, z)] := by
    refine ⟨rG.1.take (rG.1.length - rs5.1.length), ?_⟩
    rw [hrH, hgs5]
    rfl
  obtain ⟨z, hrH2⟩ := hrH2
  rw [hres2g, hgA, hgD, hgF, hrB2, hrE2, hrH2, hrI2]
  rcases hG2 with ⟨hE, hC2⟩ | ⟨hS, y, hC2⟩ <;> rcases hGg with hGe | ⟨p4, hG4⟩
  · subst hE; rw [hC2, hGe]; simp [groupGet]
  · subst hE; rw [hC2, hG4]; simp [groupGet]
  · subst hS; rw [hC2, hGe]; simp [groupGet]
  · subst hS; rw [hC2, hG4]; simp [groupGet]

/-- A grammar-shaped line with a `')'` in its suffix has at least one
complete match (through the second alternative). -/
theorem C6_match_exists (hex ast name a b : Str)
    (hhex : ∀ c ∈ hex, isHexUpper c = true) (hhexne : hex ≠ [])
    (hast : ast = [] ∨ ast = ['*'])
    (hnamen : ∀ c ∈ name, c ≠ '\n') (hnne : name ≠ [])
    (han : ∀ c ∈ a, c ≠ '\n') (hbn : ∀ c ∈ b, c ≠ '\n') :
    mall efibootmgr_regex
      (str "Boot" ++ (hex ++ (ast ++ (' ' :: (name ++ '\t' :: (a ++ ')' :: b)))))) ≠ [] := by
  have heos : (([], []) : MRes) ∈ mall .eos [] := mem_mall_eos.mpr ⟨rfl, Or.inl rfl⟩
  have hstar5 : (([], []) : MRes) ∈ mall (.star reDot) b := by
    have := star_cls_mem_append b.length b []
      (fun c hc => decide_eq_true (hbn c hc)) (Nat.le_refl _)
    rw [List.append_nil] at this
    exact this
  have hg5 : ((([] : Str), [(5, b.take (b.length - 0))]) : MRes)
      ∈ mall (.group 5 (.star reDot)) b :=
    mem_mall_group.mpr ⟨([], []), hstar5, rfl⟩
  have hHI : ((([] : Str), [(5, b.take (b.length - 0))]) : MRes)
      ∈ mall (.seq (.group 5 (.star reDot)) .eos) b := by
    apply mem_mall_seq.mpr
    exact ⟨_, hg5, ([], []), heos, by simp⟩
  have hstarA : (((')' :: b), []) : MRes) ∈ mall (.star reDot) (a ++ ')' :: b) :=
    star_cls_mem_append (a ++ ')' :: b).length a (')' :: b)
      (fun c hc => decide_eq_true (han c hc)) (by simp)
  have hlitP : ((b, []) : MRes) ∈ mall (.lit ')') (')' :: b) :=
    mem_mall_lit.mpr ⟨rfl, rfl⟩
  have halt : ((b, []) : MRes) ∈ mall (.alt (.seq (.plus reDot)
        (.seq (reLits (str "/File(")) (.seq (.group 4 (.plus reDot)) (.lit ')'))))
      (.seq (.star reDot) (.lit ')'))) (a ++ ')' :: b) := by
    apply mem_mall_alt.mpr
    right
    exact mem_mall_seq.mpr ⟨_, hstarA, _, hlitP, rfl⟩
  have hGHI : ((([] : Str), [] ++ ([] ++ [(5, b.take (b.length - 0))])) : MRes)
      ∈ mall (.seq (.alt (.seq (.plus reDot)
          (.seq (reLits (str "/File(")) (.seq (.group 4 (.plus reDot)) (.lit ')'))))
        (.seq (.star reDot) (.lit ')')))
        (.seq (.group 5 (.star reDot)) .eos)) (a ++ ')' :: b) :=
    mem_mall_seq.mpr ⟨_, halt, _, hHI, by simp⟩
  have htabC : ((a ++ ')' :: b, []) : MRes)
      ∈ mall (.lit '\t') ('\t' :: (a ++ ')' :: b)) := mem_mall_lit.mpr ⟨rfl, rfl⟩
  have hFGHI : ∃ g, ((([] : Str), g) : MRes)
      ∈ mall (.seq (.lit '\t') (.seq (.alt (.seq (.plus reDot)
          (.seq (reLits (str "/File(")) (.seq (.group 4 (.plus reDot)) (.lit ')'))))
        (.seq (.star reDot) (.lit ')')))
        (.seq (.group 5 (.star reDot)) .eos))) ('\t' :: (a ++ ')' :: b)) :=
    ⟨_, mem_mall_seq.mpr ⟨_, htabC, _, hGHI, rfl⟩⟩
  obtain ⟨gF, hFGHI⟩ := hFGHI
  have hplus3 : ((('\t' :: (a ++ ')' :: b)), []) : MRes)
      ∈ mall (RE.plus (.cls (fun c => decide (c ≠ '\n'))))
        (name ++ '\t' :: (a ++ ')' :: b)) :=
    plus_cls_mem_append name _ hnne (fun c hc => decide_eq_true (hnamen c hc))
  have hg3 : ∃ g, ((('\t' :: (a ++ ')' :: b)), g) : MRes)
      ∈ mall (.group 3 (.plus reDot)) (name ++ '\t' :: (a ++ ')' :: b)) :=
    ⟨_, mem_mall_group.mpr ⟨_, hplus3, rfl⟩⟩
  obtain ⟨g3, hg3⟩ := hg3
  have hEtail : ∃ g, ((([] : Str), g) : MRes)
      ∈ mall (.seq (.group 3 (.plus reDot)) (.seq (.lit '\t')
          (.seq (.alt (.seq (.plus reDot)
            (.seq (reLits (str "/File(")) (.seq (.group 4 (.plus reDot)) (.lit ')'))))
          (.seq (.star reDot) (.lit ')')))
          (.seq (.group 5 (.star reDot)) .eos))))
        (name ++ '\t' :: (a ++ ')' :: b)) :=
    ⟨_, mem_mall_seq.mpr ⟨_, hg3, _, hFGHI, rfl⟩⟩
  obtain ⟨gE, hEtail⟩ := hEtail
  have hsp : ((name ++ '\t' :: (a ++ ')' :: b), []) : MRes)
      ∈ mall (.lit ' ') (' ' :: (name ++ '\t' :: (a ++ ')' :: b))) :=
    mem_mall_lit.mpr ⟨rfl, rfl⟩
  have hDtail : ∃ g, ((([] : Str), g) : MRes)
      ∈ mall (.seq (.lit ' ') (.seq (.group 3 (.plus reDot)) (.seq (.lit '\t')
          (.seq (.alt (.seq (.plus reDot)
            (.seq (reLits (str "/File(")) (.seq (.group 4 (.plus reDot)) (.lit ')'))))
          (.seq (.star reDot) (.lit ')')))
          (.seq (.group 5 (.star reDot)) .eos)))))
        (' ' :: (name ++ '\t' :: (a ++ ')' :: b))) :=
    ⟨_, mem_mall_seq.mpr ⟨_, hsp, _, hEtail, rfl⟩⟩
  obtain ⟨gD, hDtail⟩ := hDtail
  have hCtail : ∃ g, ((([] : Str), g) : MRes)
      ∈ mall (.seq (.opt (.group 2 (.lit '*'))) (.seq (.lit ' ')
          (.seq (.group 3 (.plus reDot)) (.seq (.lit '\t')
          (.seq (.alt (.seq (.plus reDot)
            (.seq (reLits (str "/File(")) (.seq (.group 4 (.plus reDot)) (.lit ')'))))
          (.seq (.star reDot) (.lit ')')))
          (.seq (.group 5 (.star reDot)) .eos))))))
        (ast ++ (' ' :: (name ++ '\t' :: (a ++ ')' :: b)))) := by
    rcases hast with hE | hS
    · subst hE
      rw [List.nil_append]
      have hopt : ((' ' :: (name ++ '\t' :: (a ++ ')' :: b)), []) : MRes)
          ∈ mall (.opt (.group 2 (.lit '*'))) (' ' :: (name ++ '\t' :: (a ++ ')' :: b))) := by
        apply mem_mall_alt.mpr
        right
        exact List.mem_singleton.mpr rfl
      exact ⟨_, mem_mall_seq.mpr ⟨_, hopt, _, hDtail, rfl⟩⟩
    · subst hS
      rw [List.cons_append, List.nil_append]
      have hlitS : ((' ' :: (name ++ '\t' :: (a ++ ')' :: b)), []) : MRes)
          ∈ mall (.lit '*') ('*' :: ' ' :: (name ++ '\t' :: (a ++ ')' :: b))) :=
        mem_mall_lit.mpr ⟨rfl, rfl⟩
      have hopt : ∃ g, ((' ' :: (name ++ '\t' :: (a ++ ')' :: b)), g) : MRes)
          ∈ mall (.opt (.group 2 (.lit '*')))
            ('*' :: ' ' :: (name ++ '\t' :: (a ++ ')' :: b))) := by
        refine ⟨_, mem_mall_alt.mpr (Or.inl (mem_mall_group.mpr ⟨_, hlitS, rfl⟩))⟩
      obtain ⟨g2, hopt⟩ := hopt
      exact ⟨_, mem_mall_seq.mpr ⟨_, hopt, _, hDtail, rfl⟩⟩
  obtain ⟨gC, hCtail⟩ := hCtail
  have hplus1 : (((ast ++ (' ' :: (name ++ '\t' :: (a ++ ')' :: b)))), []) : MRes)
      ∈ mall (RE.plus (.cls isHexUpper))
        (hex ++ (ast ++ (' ' :: (name ++ '\t' :: (a ++ ')' :: b))))) :=
    plus_cls_mem_append hex _ hhexne hhex
  have hg1 : ∃ g, (((ast ++ (' ' :: (name ++ '\t' :: (a ++ ')' :: b)))), g) : MRes)
      ∈ mall (.group 1 (.plus (.cls isHexUpper)))
        (hex ++ (ast ++ (' ' :: (name ++ '\t' :: (a ++ ')' :: b))))) :=
    ⟨_, mem_mall_group.mpr ⟨_, hplus1, rfl⟩⟩
  obtain ⟨g1, hg1⟩ := hg1
  have hBtail : ∃ g, ((([] : Str), g) : MRes)
      ∈ mall (.seq (.group 1 (.plus (.cls isHexUpper)))
          (.seq (.opt (.group 2 (.lit '*'))) (.seq (.lit ' ')
          (.seq (.group 3 (.plus reDot)) (.seq (.lit '\t')
          (.seq (.alt (.seq (.plus reDot)
            (.seq (reLits (str "/File(")) (.seq (.group 4 (.plus reDot)) (.lit ')'))))
          (.seq (.star reDot) (.lit ')')))
          (.seq (.group 5 (.star reDot)) .eos)))))))
        (hex ++ (ast ++ (' ' :: (name ++ '\t' :: (a ++ ')' :: b))))) :=
    ⟨_, mem_mall_seq.mpr ⟨_, hg1, _, hCtail, rfl⟩⟩
  obtain ⟨gB, hBtail⟩ := hBtail
  have hboot : (((hex ++ (ast ++ (' ' :: (name ++ '\t' :: (a ++ ')' :: b))))), []) : MRes)
      ∈ mall (reLits (str "Boot"))
        (str "Boot" ++ (hex ++ (ast ++ (' ' :: (name ++ '\t' :: (a ++ ')' :: b)))))) := by
    rw [mall_lits_append]
    exact List.mem_singleton.mpr rfl
  have hfull : ((([] : Str), [] ++ gB) : MRes)
      ∈ mall efibootmgr_regex
        (str "Boot" ++ (hex ++ (ast ++ (' ' :: (name ++ '\t' :: (a ++ ')' :: b)))))) :=
    mem_mall_seq.mpr ⟨_, hboot, _, hBtail, rfl⟩
  exact List.ne_nil_of_mem hfull

set_option maxRecDepth 1000000 in
/-- **C6.** For every entry line of the grammar shape
`Boot<HEX><OPTIONAL_ASTERISK> <NAME><TAB><SUFFIX>` in which the name and
the suffix contain no further tab (and no newline) and the suffix
contains a `')'`, `parse_efibootmgr_line` produces an entry whose
`active` flag is true iff the asterisk is present and whose `name` is
everything up to the (then unique) first tab; and the particular line
`Boot0001* My OS<TAB>HD(1,GPT,...)/File(\EFI\os\loader.efi)params`
parses to the entry with id `0001`, active, name `My OS`, loader path
`\EFI\os\loader.efi` and parameters `params`. -/
theorem C6_entry_parse :
    (∀ hex ast name a b : Str,
      (∀ c ∈ hex, isHexUpper c = true) → hex ≠ [] →
      (ast = [] ∨ ast = ['*']) →
      name ≠ [] → '\t' ∉ name → (∀ c ∈ name, c ≠ '\n') →
      '\t' ∉ a → (∀ c ∈ a, c ≠ '\n') →
      '\t' ∉ b → (∀ c ∈ b, c ≠ '\n') →
      ∃ path params,
        parse_efibootmgr_line
            (str "Boot" ++ (hex ++ (ast ++ (' ' :: (name ++ '\t' :: (a ++ ')' :: b)))))) =
          .ok (.entry { num := hex, active := decide (ast ≠ []), name := name,
                        path := path, parameters := params })) ∧
    parse_efibootmgr_line
        (str "Boot0001* My OS\tHD(1,GPT,...)/File(\\EFI\\os\\loader.efi)params") =
      .ok (.entry { num := str "0001", active := true, name := str "My OS",
                    path := str "\\EFI\\os\\loader.efi", parameters := str "params" }) := by
  refine ⟨?_, by decide⟩
  intro hex ast name a b hhex hhexne hast hnne hnamet hnamen hat han hbt hbn
  have hsuft : '\t' ∉ a ++ ')' :: b := by
    intro h
    rcases List.mem_append.mp h with h1 | h1
    · exact hat h1
    · rcases List.mem_cons.mp h1 with h2 | h2
      · exact absurd h2 (by decide)
      · exact hbt h2
  have hne := C6_match_exists hex ast name a b hhex hhexne hast hnamen hnne han hbn
  set L := str "Boot" ++ (hex ++ (ast ++ (' ' :: (name ++ '\t' :: (a ++ ')' :: b))))) with hL
  have hmem : (mall efibootmgr_regex L).head hne ∈ mall efibootmgr_regex L :=
    List.head_mem hne
  set r := (mall efibootmgr_regex L).head hne with hr
  obtain ⟨hg1, hg2, hg3⟩ :=
    C6_forced_groups hex ast name (a ++ ')' :: b) hhex hast hnamet hsuft r hmem
  have hmatch : reMatch efibootmgr_regex L = some r.2 := by
    unfold reMatch
    rw [List.head?_eq_head hne]
    rfl
  have hred : parse_efibootmgr_line L =
      (if (groupGet r.2 1).getD [] ≠ [] ∧ (groupGet r.2 3).getD [] ≠ [] then
        Except.ok (.entry
          { num := (groupGet r.2 1).getD []
            active := (groupGet r.2 2).isSome
            name := (groupGet r.2 3).getD []
            path := (groupGet r.2 4).getD []
            parameters := try_decode_efibootmgr ((groupGet r.2 5).getD []) })
      else parse_efibootmgr_line_tail L) := by
    unfold parse_efibootmgr_line
    rw [hmatch]
  refine ⟨(groupGet r.2 4).getD [], try_decode_efibootmgr ((groupGet r.2 5).getD []), ?_⟩
  rw [hred, hg1, hg3]
  simp only [Option.getD_some]
  rw [if_pos ⟨hhexne, hnne⟩, hg2]

/-- Concrete instance of `C6_entry_parse`: the line `Boot0001* My OS<TAB>X)p`
parses to an active entry named `My OS`. -/
theorem C6_entry_parse_witness :
    ∃ path params,
      parse_efibootmgr_line (str "Boot0001* My OS\tX)p") =
        .ok (.entry { num := str "0001", active := true, name := str "My OS",
                      path := path, parameters := params }) := by
  have h := C6_entry_parse.1 (str "0001") ['*'] (str "My OS") (str "X") (str "p")
    (by decide) (by decide) (Or.inr rfl) (by decide) (by decide) (by decide)
    (by decide) (by decide) (by decide) (by decide)
  have hline : str "Boot" ++ (str "0001" ++ ((['*'] : Str) ++
      (' ' :: (str "My OS" ++ '\t' :: (str "X" ++ ')' :: str "p"))))) =
      str "Boot0001* My OS\tX)p" := by decide
  rw [hline] at h
  exact h
